import Mathlib

/-!
Verification development for the transl8-ai translation CLI.

This file gives a shallow embedding of the pure core of the repository:
the tree model and reconciler of src/utils.ts (reorderToMatchSource,
flattenKeys, getValueAtPath, getValueType, countLeafKeys, getParentSection,
isHrefKey, getDescriptionParentPath, sectionHasLinks, getLinkTextKeyPaths,
similarityScore), the diff engine of src/analyzer.ts (compareTranslations),
and the orchestrator of src/translator.ts (the missing-key classifier slice
of translateMissingKeys, the structured description+links call
translateDescriptionWithLinks, and the bounded concurrent pool
translateBatch), together with theorems about them.

Modelling conventions, applied throughout:
- JavaScript values stored in a TranslationFile are modelled by `Tree`:
  string leaves, plain objects (insertion-ordered key/value lists, keys
  unique in any value produced by JSON parsing), and arrays.  JavaScript
  prototype artifacts (such as the "length" property of arrays) are not
  modelled; translation data never relies on them.
- JavaScript property access obj[k] is `getKey`; for arrays the numeric
  index keys "0", "1", ... are modelled by `idxPairs`, matching
  Object.keys on a JS array.
- String.prototype.split(".") is modelled by the executable `jsSplitDot`,
  and Array.prototype.join(".") by `joinDot`.
- The asynchronous pool of translateBatch is modelled as a labelled
  transition system; nondeterministic completion order of the in-flight
  external calls is the nondeterminism of the step relation.
-/

namespace Transl8

/-- Model of a JavaScript value held in a TranslationFile (src/types.ts):
a string leaf, a plain object, or an array. -/
inductive Tree where
  | str : String → Tree
  | obj : List (String × Tree) → Tree
  | arr : List Tree → Tree

mutual
/-- Decidable equality on trees, written by hand because the automatic
deriving handler does not support this nested inductive type. -/
def decEqTree : (a b : Tree) → Decidable (a = b)
  | .str a, .str b =>
      match String.decEq a b with
      | isTrue h => isTrue (by rw [h])
      | isFalse h => isFalse (fun hh => h (Tree.str.inj hh))
  | .str _, .obj _ => isFalse (fun h => Tree.noConfusion h)
  | .str _, .arr _ => isFalse (fun h => Tree.noConfusion h)
  | .obj _, .str _ => isFalse (fun h => Tree.noConfusion h)
  | .obj l, .obj m =>
      match decEqEntries l m with
      | isTrue h => isTrue (by rw [h])
      | isFalse h => isFalse (fun hh => h (Tree.obj.inj hh))
  | .obj _, .arr _ => isFalse (fun h => Tree.noConfusion h)
  | .arr _, .str _ => isFalse (fun h => Tree.noConfusion h)
  | .arr _, .obj _ => isFalse (fun h => Tree.noConfusion h)
  | .arr l, .arr m =>
      match decEqList l m with
      | isTrue h => isTrue (by rw [h])
      | isFalse h => isFalse (fun hh => h (Tree.arr.inj hh))

/-- Decidable equality on object entry lists. -/
def decEqEntries : (l m : List (String × Tree)) → Decidable (l = m)
  | [], [] => isTrue rfl
  | [], _ :: _ => isFalse (fun h => List.noConfusion h)
  | _ :: _, [] => isFalse (fun h => List.noConfusion h)
  | (k, v) :: l, (k', v') :: m =>
      match String.decEq k k', decEqTree v v', decEqEntries l m with
      | isTrue h1, isTrue h2, isTrue h3 => isTrue (by rw [h1, h2, h3])
      | isFalse h1, _, _ => isFalse (by intro hh; injection hh with hp _; injection hp with hk _; exact h1 hk)
      | _, isFalse h2, _ => isFalse (by intro hh; injection hh with hp _; injection hp with _ hv; exact h2 hv)
      | _, _, isFalse h3 => isFalse (by intro hh; injection hh with _ ht; exact h3 ht)

/-- Decidable equality on element lists. -/
def decEqList : (l m : List Tree) → Decidable (l = m)
  | [], [] => isTrue rfl
  | [], _ :: _ => isFalse (fun h => List.noConfusion h)
  | _ :: _, [] => isFalse (fun h => List.noConfusion h)
  | v :: l, v' :: m =>
      match decEqTree v v', decEqList l m with
      | isTrue h1, isTrue h2 => isTrue (by rw [h1, h2])
      | isFalse h1, _ => isFalse (by intro hh; injection hh with hv _; exact h1 hv)
      | _, isFalse h2 => isFalse (by intro hh; injection hh with _ ht; exact h2 ht)
end

instance : DecidableEq Tree := decEqTree

/-- Model of the JavaScript string split keyPath.split("."), accumulator
form: the characters consumed so far of the current segment are carried
reversed in acc. -/
def splitAux (cs : List Char) (acc : List Char) : List String :=
  match cs with
  | [] => [String.mk acc.reverse]
  | c :: rest => if c = '.' then String.mk acc.reverse :: splitAux rest [] else splitAux rest (c :: acc)

/-- Model of keyPath.split(".") from the source: splits on every dot;
the empty string splits to [""]. -/
def jsSplitDot (s : String) : List String := splitAux s.data []

/-- Model of parts.join(".") from the source. -/
def joinDot : List String → String
  | [] => ""
  | [x] => x
  | x :: y :: rest => x ++ "." ++ joinDot (y :: rest)

/-- The decimal string of a natural number, as JavaScript prints array
indices. -/
def jsIdx (i : Nat) : String := toString i

/-- First-match lookup in an object entry list, as JavaScript property
lookup on an object literal (keys of a parsed JSON object are unique, so
first-match agrees with JS). -/
def lookupKey (l : List (String × Tree)) (k : String) : Option Tree :=
  match l with
  | [] => none
  | (k', v) :: rest => if k' = k then some v else lookupKey rest k

/-- Index-keyed entries of a JS array starting at index i: Object.keys of
an array are the decimal index strings. -/
def idxPairs (l : List Tree) (i : Nat) : List (String × Tree) :=
  match l with
  | [] => []
  | x :: xs => (jsIdx i, x) :: idxPairs xs (i + 1)

/-- The own enumerable entries of a JS value: none for a string (the code
only enumerates values it has checked to be objects), the key/value pairs
of an object, the index-keyed elements of an array. -/
def entriesOf (t : Tree) : List (String × Tree) :=
  match t with
  | .str _ => []
  | .obj l => l
  | .arr l => idxPairs l 0

/-- JavaScript property access value[k] for the values the code reads it
on (objects and arrays); none models undefined. -/
def getKey (t : Tree) (k : String) : Option Tree := lookupKey (entriesOf t) k

/-- Whether typeof value === "object" (and not null) holds for a modelled
value: true for objects and arrays, false for string leaves. -/
def isObjLike (t : Tree) : Bool :=
  match t with
  | .str _ => false
  | _ => true

/-- Container/leaf shape of a value, the notion the spec's shape
preservation property speaks about. -/
inductive Shape where
  | leaf : Shape
  | container : Shape
deriving DecidableEq

/-- Shape of a modelled value: a string is a leaf, objects and arrays are
containers. -/
def shapeOf (t : Tree) : Shape :=
  match t with
  | .str _ => .leaf
  | _ => .container

/-- Model of joinPre used by flattenKeys: the JS template
(prefix ? prefix + "." + key : key). -/
def joinPre (pre key : String) : String := if pre = "" then key else pre ++ "." ++ key

mutual
/-- Model of flattenKeys (src/utils.ts lines 171-189): depth-first,
insertion-order list of dot-joined paths of the leaves of a value.  The
source function is only applied to containers; on a string leaf the model
returns the empty list. -/
def flattenKeys : Tree → String → List String
  | .str _, _ => []
  | .obj l, pre => flattenEntries l pre
  | .arr l, pre => flattenElems l 0 pre

/-- Flatten traversal over the entries of an object. -/
def flattenEntries : List (String × Tree) → String → List String
  | [], _ => []
  | (key, v) :: rest, pre =>
      (if isObjLike v then flattenKeys v (joinPre pre key) else [joinPre pre key])
        ++ flattenEntries rest pre

/-- Flatten traversal over the elements of an array, keyed by decimal
indices from i. -/
def flattenElems : List Tree → Nat → String → List String
  | [], _, _ => []
  | v :: rest, i, pre =>
      (if isObjLike v then flattenKeys v (joinPre pre (jsIdx i)) else [joinPre pre (jsIdx i)])
        ++ flattenElems rest (i + 1) pre
end

/-- Walk of getValueAtPath along an already-split segment list: undefined
(none) as soon as a segment is missing or an intermediate value is a leaf. -/
def resolveSegs : Tree → List String → Option Tree
  | t, [] => some t
  | t, p :: rest =>
      match getKey t p with
      | none => none
      | some v => resolveSegs v rest

/-- Model of getValueAtPath (src/utils.ts lines 194-212). -/
def getValueAtPath (t : Tree) (keyPath : String) : Option Tree :=
  resolveSegs t (jsSplitDot keyPath)

/-- The three type tags of getValueType (src/utils.ts lines 252-259).  The
JS fallback branch for non-string primitives cannot arise for modelled
values. -/
inductive VType where
  | string : VType
  | object : VType
  | undefined : VType
deriving DecidableEq

/-- Model of getValueType applied to the result of getValueAtPath. -/
def getValueType : Option Tree → VType
  | none => .undefined
  | some (.str _) => .string
  | some (.obj _) => .object
  | some (.arr _) => .object

mutual
/-- Model of countLeafKeys (src/utils.ts lines 264-276): number of leaves
of a value.  The source function is only applied to containers; on a leaf
the model returns 0, matching the empty flatten list. -/
def countLeafKeys : Tree → Nat
  | .str _ => 0
  | .obj l => countLeafEntries l
  | .arr l => countLeafList l

/-- Leaf count over object entries. -/
def countLeafEntries : List (String × Tree) → Nat
  | [] => 0
  | (_, v) :: rest => (if isObjLike v then countLeafKeys v else 1) + countLeafEntries rest

/-- Leaf count over array elements. -/
def countLeafList : List Tree → Nat
  | [] => 0
  | v :: rest => (if isObjLike v then countLeafKeys v else 1) + countLeafList rest
end

mutual
/-- One step of reorderToMatchSource over the entries of an object source:
each source key is paired with the merge of its source value and the
content value at the same key. -/
def reorderObjEntries : List (String × Tree) → Tree → List (String × Tree)
  | [], _ => []
  | (k, sv) :: rest, c => (k, mergeVal sv (getKey c k)) :: reorderObjEntries rest c

/-- The same step when the source being recursed into is an array: its
Object.keys are the decimal index strings, and the result is rebuilt as a
plain object keyed by them, exactly as the JS code building result = {}
does. -/
def reorderArrEntries : List Tree → Nat → Tree → List (String × Tree)
  | [], _, _ => []
  | sv :: rest, i, c => (jsIdx i, mergeVal sv (getKey c (jsIdx i))) :: reorderArrEntries rest (i + 1) c

/-- The per-key merge of reorderToMatchSource (src/utils.ts lines 98-151):
object source values recurse when the content value is a plain object and
are copied verbatim otherwise; array source values merge elementwise
against a content array of the same length and are copied verbatim
otherwise; leaf source values take the content value whenever the key is
present in the content. -/
def mergeVal : Tree → Option Tree → Tree
  | .obj l, some (.obj m) => .obj (reorderObjEntries l (.obj m))
  | .obj l, _ => .obj l
  | .arr l, some (.arr m) =>
      if l.length = m.length then .arr (mergeElems l m) else .arr l
  | .arr l, _ => .arr l
  | .str _, some cv => cv
  | .str s, none => .str s

/-- Elementwise merge of two same-length arrays: a pair of objects in the
typeof sense (arrays included) recurses, any other pair yields the content
element. -/
def mergeElems : List Tree → List Tree → List Tree
  | [], _ => []
  | _ :: _, [] => []
  | si :: ss, ci :: cs =>
      (if isObjLike ci then
        match si with
        | .obj l' => Tree.obj (reorderObjEntries l' ci)
        | .arr l' => Tree.obj (reorderArrEntries l' 0 ci)
        | .str _ => ci
      else ci) :: mergeElems ss cs
end

/-- Merge of one array element pair, the head step of mergeElems. -/
def elemMerge (si ci : Tree) : Tree :=
  if isObjLike ci then
    match si with
    | .obj l' => Tree.obj (reorderObjEntries l' ci)
    | .arr l' => Tree.obj (reorderArrEntries l' 0 ci)
    | .str _ => ci
  else ci

/-- Model of reorderToMatchSource (src/utils.ts lines 98-151).  The
function is called on objects; an array source is enumerated by its index
keys (the recursive calls from the element case can receive arrays on
either side), and a string source, which cannot arise from the call sites,
yields the empty object. -/
def reorderToMatchSource (source content : Tree) : Tree :=
  match source with
  | .obj l => .obj (reorderObjEntries l content)
  | .arr l => .obj (reorderArrEntries l 0 content)
  | .str _ => .obj []

mutual
/-- Safety of a source entry list against a content value for the merge of
reorderToMatchSource: for every source key the content also holds, the two
values must agree in container/leaf shape, recursively, and inside a pair
of same-length arrays every element pair must be two containers (which
recurse) or two leaves.  Keys the content lacks, and content values whose
mismatching shape the merge discards in favour of the source, are always
safe. -/
def safeObjEntries : List (String × Tree) → Tree → Bool
  | [], _ => true
  | (k, sv) :: rest, c => safeVal sv (getKey c k) && safeObjEntries rest c

/-- Safety of array-source entries (index keys from i) against a content
value. -/
def safeArrEntries : List Tree → Nat → Tree → Bool
  | [], _, _ => true
  | sv :: rest, i, c => safeVal sv (getKey c (jsIdx i)) && safeArrEntries rest (i + 1) c

/-- Safety of one source value against the optional content value found at
its key, following the case split of mergeVal. -/
def safeVal : Tree → Option Tree → Bool
  | .obj l, some (.obj m) => safeObjEntries l (.obj m)
  | .obj _, _ => true
  | .arr l, some (.arr m) => if l.length = m.length then safeElems l m else true
  | .arr _, _ => true
  | .str _, some (.str _) => true
  | .str _, some _ => false
  | .str _, none => true

/-- Safety of the element pairs of two same-length arrays: both containers
and recursively safe, or both leaves. -/
def safeElems : List Tree → List Tree → Bool
  | [], _ => true
  | _ :: _, [] => true
  | si :: ss, ci :: cs =>
      (match si with
       | .obj l' => isObjLike ci && safeObjEntries l' ci
       | .arr l' => isObjLike ci && safeArrEntries l' 0 ci
       | .str _ => !(isObjLike ci))
      && safeElems ss cs
end

/-- Safety of one array element pair, the head step of safeElems. -/
def elemSafe (si ci : Tree) : Bool :=
  match si with
  | .obj l' => isObjLike ci && safeObjEntries l' ci
  | .arr l' => isObjLike ci && safeArrEntries l' 0 ci
  | .str _ => !(isObjLike ci)

/-- Safety of a whole content tree against a whole source tree: under this
condition the merge of reorderToMatchSource preserves the source's
container/leaf shape at every key path and its flattened key order. -/
def mergeSafe (source content : Tree) : Bool :=
  match source with
  | .obj l => safeObjEntries l content
  | .arr l => safeArrEntries l 0 content
  | .str _ => true

mutual
/-- Keys are pairwise distinct in every object anywhere inside the value,
as is automatic for a value parsed from JSON. -/
def wfKeys : Tree → Bool
  | .str _ => true
  | .obj l => wfKeysEntries l
  | .arr l => wfKeysList l

/-- Distinct-key check over object entries. -/
def wfKeysEntries : List (String × Tree) → Bool
  | [] => true
  | (k, v) :: rest => !(rest.any fun p => p.1 == k) && wfKeys v && wfKeysEntries rest

/-- Distinct-key check over array elements. -/
def wfKeysList : List Tree → Bool
  | [] => true
  | v :: rest => wfKeys v && wfKeysList rest
end

mutual
/-- No array appears directly as an element of an array anywhere inside
the value.  Merging such a nested array rebuilds it as an index-keyed
plain object, which is what breaks idempotence of the reconciler. -/
def noNestedArr : Tree → Bool
  | .str _ => true
  | .obj l => noNestedArrEntries l
  | .arr l => noNestedArrList l

/-- Nested-array check over object entries. -/
def noNestedArrEntries : List (String × Tree) → Bool
  | [] => true
  | (_, v) :: rest => noNestedArr v && noNestedArrEntries rest

/-- Nested-array check over array elements: no element is itself an
array. -/
def noNestedArrList : List Tree → Bool
  | [] => true
  | v :: rest =>
      (match v with
       | .arr _ => false
       | _ => true)
      && noNestedArr v && noNestedArrList rest
end

/-- One type-mismatch entry of the discrepancy report (src/types.ts). -/
structure TypeMismatch where
  path : String
  sourceType : VType
  targetType : VType
deriving DecidableEq

/-- The scalar counts of the discrepancy report (src/types.ts). -/
structure ReportSummary where
  totalKeysInSource : Nat
  totalKeysInTarget : Nat
  missingCount : Nat
  extraCount : Nat
  typeMismatchCount : Nat
deriving DecidableEq

/-- The discrepancy report of compareTranslations (src/types.ts). -/
structure DiscrepancyReport where
  missingInTarget : List String
  extraInTarget : List String
  typeMismatches : List TypeMismatch
  summary : ReportSummary
deriving DecidableEq

/-- Model of compareTranslations (src/analyzer.ts lines 26-78): missing =
source leaf paths absent from the target key set, extra = target leaf
paths absent from the source key set, and a type mismatch for every
source key also present in the target key set whose resolved types differ
with neither side undefined.  The JS Set is membership-only, modelled by
list membership. -/
def compareTranslations (source target : Tree) : DiscrepancyReport :=
  let sourceKeys := flattenKeys source ""
  let targetKeys := flattenKeys target ""
  let missingInTarget := sourceKeys.filter (fun k => !(decide (k ∈ targetKeys)))
  let extraInTarget := targetKeys.filter (fun k => !(decide (k ∈ sourceKeys)))
  let typeMismatches := sourceKeys.filterMap (fun key =>
    if key ∈ targetKeys then
      let sourceType := getValueType (getValueAtPath source key)
      let targetType := getValueType (getValueAtPath target key)
      if sourceType ≠ targetType ∧ sourceType ≠ .undefined ∧ targetType ≠ .undefined then
        some ⟨key, sourceType, targetType⟩
      else none
    else none)
  { missingInTarget := missingInTarget
    extraInTarget := extraInTarget
    typeMismatches := typeMismatches
    summary :=
      { totalKeysInSource := sourceKeys.length
        totalKeysInTarget := targetKeys.length
        missingCount := missingInTarget.length
        extraCount := extraInTarget.length
        typeMismatchCount := typeMismatches.length } }

/-- Model of similarityScore (src/utils.ts lines 661-671) on token sets:
0 when either set is empty or the overlap is empty, otherwise the Jaccard
index intersection over union.  JS floating point division is modelled by
exact rational division. -/
def similarityScore (a b : Finset String) : ℚ :=
  if a.card = 0 ∨ b.card = 0 then 0
  else
    let overlap := (a ∩ b).card
    if overlap = 0 then 0
    else (overlap : ℚ) / ((a.card : ℚ) + (b.card : ℚ) - (overlap : ℚ))

/-- A linked-content pattern of the configuration (src/types.ts). -/
structure LinkedContentPattern where
  descriptionPattern : String
  linksKey : String
  linkTextField : String
  linkHrefField : String
deriving DecidableEq

/-- Model of the JS endsWith used after converting a glob to a suffix. -/
def jsEndsWith (s suf : String) : Bool := suf.data.isSuffixOf s.data

/-- Model of pattern.replace applied to the leading star of a glob:
"*.href" becomes ".href". -/
def stripLeadingStar (p : String) : String :=
  match p.data with
  | '*' :: rest => String.mk rest
  | _ => p

/-- Model of isHrefKey (src/utils.ts lines 290-299): the key path ends
with the suffix of some configured pattern. -/
def isHrefKey (keyPath : String) (hrefPatterns : List String) : Bool :=
  hrefPatterns.any fun pattern => jsEndsWith keyPath (stripLeadingStar pattern)

/-- Model of getParentSection (src/utils.ts lines 281-284). -/
def getParentSection (keyPath : String) : String :=
  let parts := jsSplitDot keyPath
  if parts.length > 1 then joinDot parts.dropLast else ""

/-- Model of getDescriptionParentPath (src/utils.ts lines 324-341): with
no configured patterns the key must end in ".description"; otherwise it
must end in the suffix of some configured description pattern; the result
is always the parent section. -/
def getDescriptionParentPath (keyPath : String) (patterns : List LinkedContentPattern) : Option String :=
  match patterns with
  | [] => if jsEndsWith keyPath ".description" then some (getParentSection keyPath) else none
  | _ =>
      if patterns.any (fun p => jsEndsWith keyPath (stripLeadingStar p.descriptionPattern)) then
        some (getParentSection keyPath)
      else none

/-- The links key of the first configured pattern, or the default. -/
def linksKeyOf (patterns : List LinkedContentPattern) : String :=
  match patterns with
  | [] => "links"
  | p :: _ => p.linksKey

/-- The link text field of the first configured pattern, or the default. -/
def textFieldOf (patterns : List LinkedContentPattern) : String :=
  match patterns with
  | [] => "text"
  | p :: _ => p.linkTextField

/-- Model of sectionHasLinks (src/utils.ts lines 347-371): the parent path
resolves to an object holding, under the links key, a nonempty array whose
every item is an object with a string text field. -/
def sectionHasLinks (obj : Tree) (parentPath : String) (patterns : List LinkedContentPattern) : Bool :=
  match getValueAtPath obj parentPath with
  | none => false
  | some parent =>
      isObjLike parent &&
        match getKey parent (linksKeyOf patterns) with
        | some (.arr links) =>
            decide (links.length > 0) && links.all fun item =>
              isObjLike item &&
                match getKey item (textFieldOf patterns) with
                | some (.str _) => true
                | _ => false
        | _ => false

/-- Model of getLinkTextKeyPaths (src/utils.ts lines 376-389). -/
def getLinkTextKeyPaths (parentPath : String) (linksCount : Nat) (patterns : List LinkedContentPattern) : List String :=
  (List.range linksCount).map fun i =>
    parentPath ++ "." ++ linksKeyOf patterns ++ "." ++ jsIdx i ++ "." ++ textFieldOf patterns

/-- The stringKeys slice of translateMissingKeys (src/translator.ts lines
570-573): the missing keys whose source value is a string. -/
def stringKeysOf (englishFile : Tree) (missingKeys : List String) : List String :=
  missingKeys.filter fun key =>
    match getValueAtPath englishFile key with
    | some (.str _) => true
    | _ => false

/-- The pass-through group of translateMissingKeys (lines 599-601): string
keys matching a configured href pattern, copied verbatim. -/
def hrefKeysOf (englishFile : Tree) (missingKeys : List String) (hrefPatterns : List String) : List String :=
  (stringKeysOf englishFile missingKeys).filter fun k => isHrefKey k hrefPatterns

/-- The joint-group description keys of translateMissingKeys (lines
611-615): string keys with a nonempty description parent whose section has
links.  The JS truthiness test on the parent path makes an empty parent
path fail the filter. -/
def descriptionKeysWithLinksOf (englishFile : Tree) (missingKeys : List String) (patterns : List LinkedContentPattern) : List String :=
  (stringKeysOf englishFile missingKeys).filter fun key =>
    match getDescriptionParentPath key patterns with
    | some parentPath => !(parentPath == "") && sectionHasLinks englishFile parentPath patterns
    | none => false

/-- The link-text keys claimed by joint groups (lines 617-632): for each
description key, the index-keyed text paths of its sibling links array. -/
def linkTextKeysToSkipOf (englishFile : Tree) (missingKeys : List String) (patterns : List LinkedContentPattern) : List String :=
  (descriptionKeysWithLinksOf englishFile missingKeys patterns).flatMap fun descKey =>
    match getDescriptionParentPath descKey patterns with
    | some parentPath =>
        (match getValueAtPath englishFile parentPath with
         | some parent =>
             (match getKey parent (linksKeyOf patterns) with
              | some (.arr links) => getLinkTextKeyPaths parentPath links.length patterns
              | _ => [])
         | none => [])
    | none => []

/-- The ordinary group of translateMissingKeys (lines 649-654): string
keys that match no href pattern, are not description keys of a joint
group, and are not link-text keys claimed by one. -/
def normalKeysOf (englishFile : Tree) (missingKeys : List String) (hrefPatterns : List String) (patterns : List LinkedContentPattern) : List String :=
  (stringKeysOf englishFile missingKeys).filter fun key =>
    !(isHrefKey key hrefPatterns) &&
    !((descriptionKeysWithLinksOf englishFile missingKeys patterns).contains key) &&
    !((linkTextKeysToSkipOf englishFile missingKeys patterns).contains key)

/-- Model of a parsed JSON value, the possible results of the JSON.parse
call inside translateDescriptionWithLinks. -/
inductive JVal where
  | jnull : JVal
  | jbool : Bool → JVal
  | jnum : Int → JVal
  | jstr : String → JVal
  | jarr : List JVal → JVal
  | jobj : List (String × JVal) → JVal

/-- First-match lookup in a JSON object field list. -/
def jlookup (l : List (String × JVal)) (k : String) : Option JVal :=
  match l with
  | [] => none
  | (k', v) :: rest => if k' = k then some v else jlookup rest k

/-- JavaScript property access parsed[name] on a parsed JSON value other
than null: a field of an object, undefined on every other value. -/
def jfield (v : JVal) (name : String) : Option JVal :=
  match v with
  | .jobj fields => jlookup fields name
  | _ => none

/-- One result row of translateDescriptionWithLinks.  JS pushes whatever
value sits in the parsed linkTexts array into the translatedValue slot, so
the slot is modelled as a parsed JSON value. -/
structure LinkedResult where
  key : String
  originalValue : String
  translatedValue : JVal
  targetLanguage : String

/-- Model of translateDescriptionWithLinks (src/translator.ts lines
249-338).  The provider response is abstracted to the outcome of
JSON.parse on it: none when the parse throws, otherwise the parsed value.
On a parse failure the catch block falls back to a description-only
translateString call whose produced text is the fallbackTranslated
argument; a parsed null also lands in the catch block, because reading
parsed.description from null throws inside the try.  For any other parsed
value the try block emits a description row only when the value has a
string description field, and link rows only when it has a linkTexts
array field, truncated to the shorter of the two link lists. -/
def translateDescriptionWithLinks (descKey description : String) (linkTexts : List String)
    (targetLanguageCode : String) (patterns : List LinkedContentPattern)
    (response : Option JVal) (fallbackTranslated : String) : List LinkedResult :=
  match response with
  | none => [⟨descKey, description, .jstr fallbackTranslated, targetLanguageCode⟩]
  | some .jnull => [⟨descKey, description, .jstr fallbackTranslated, targetLanguageCode⟩]
  | some v =>
      let descResults : List LinkedResult :=
        match jfield v "description" with
        | some (.jstr d) => [⟨descKey, description, .jstr d, targetLanguageCode⟩]
        | _ => []
      let linkResults : List LinkedResult :=
        match jfield v "linkTexts" with
        | some (.jarr parsedTexts) =>
            (List.range (min linkTexts.length parsedTexts.length)).map fun i =>
              ⟨getParentSection descKey ++ "." ++ linksKeyOf patterns ++ "." ++ jsIdx i ++ "." ++ textFieldOf patterns,
               linkTexts.getD i "", parsedTexts.getD i .jnull, targetLanguageCode⟩
        | _ => []
      descResults ++ linkResults

/-- The per-leaf context handed to the pool (src/types.ts
TranslationContext); the fields beyond key and englishValue only shape the
prompt of the external call and are irrelevant to pool bookkeeping. -/
structure TranslationContext where
  key : String
  englishValue : String
  parentSection : String
  existingTranslations : List (String × String)
deriving DecidableEq

/-- A produced translation row (src/types.ts TranslationResult). -/
structure TranslationResult where
  key : String
  originalValue : String
  translatedValue : String
  targetLanguage : String
deriving DecidableEq

/-- Placeholder context used only to give list indexing a total default. -/
def dummyContext : TranslationContext := ⟨"", "", "", []⟩

/-- The result translateString resolves with for a context: the key and
original value of the context and the text produced by the external call. -/
def translateStringResult (c : TranslationContext) (lang : String) (translated : String) : TranslationResult :=
  ⟨c.key, c.englishValue, translated, lang⟩

/-- The catch-branch fallback row of translateBatch (src/translator.ts
lines 465-476): the original value is reused as the translated value. -/
def fallbackResult (c : TranslationContext) (lang : String) : TranslationResult :=
  ⟨c.key, c.englishValue, c.englishValue, lang⟩

/-- The row slot i of translateBatch ends up holding, as a function of the
outcome of the external call for item i: the translateString result when
the call resolves with text t, the fallback row when it rejects. -/
def itemResult (contexts : List TranslationContext) (lang : String)
    (outcome : Nat → Option String) (i : Nat) : TranslationResult :=
  match outcome i with
  | some t => translateStringResult (contexts.getD i dummyContext) lang t
  | none => fallbackResult (contexts.getD i dummyContext) lang

/-- The mutable state of the translateBatch pool (src/translator.ts lines
450-453): the next index to dispatch, the indices of in-flight calls, the
positional results array (none = unfilled slot), and the completion count. -/
structure PoolState where
  nextIndex : Nat
  running : List Nat
  results : List (Option TranslationResult)
  completed : Nat
deriving DecidableEq

/-- The runNext while loop (lines 456-461): while fewer than the
concurrency cap are running and items remain, dispatch the next index. -/
def dispatchLoop (conc n : Nat) (s : PoolState) : PoolState :=
  if s.running.length < conc ∧ s.nextIndex < n then
    dispatchLoop conc n ⟨s.nextIndex + 1, s.running ++ [s.nextIndex], s.results, s.completed⟩
  else s
termination_by n - s.nextIndex
decreasing_by omega

/-- The initial pool state: results is new Array(n), nothing dispatched. -/
def initPoolState (n : Nat) : PoolState := ⟨0, [], List.replicate n none, 0⟩

/-- The finally block run when in-flight call j settles (lines 462-490):
its slot is written (by then or by catch), the call leaves the running
set, the completion count rises, and unless everything has completed the
dispatch loop runs again. -/
def completeTask (conc : Nat) (contexts : List TranslationContext) (lang : String)
    (outcome : Nat → Option String) (s : PoolState) (j : Nat) : PoolState :=
  let s' : PoolState :=
    ⟨s.nextIndex, s.running.erase j,
     s.results.set j (some (itemResult contexts lang outcome j)), s.completed + 1⟩
  if s'.completed = contexts.length then s' else dispatchLoop conc contexts.length s'

/-- One scheduler step of the translateBatch pool: some in-flight call
settles.  Which one settles is the nondeterminism of completion order. -/
inductive PoolStep (conc : Nat) (contexts : List TranslationContext) (lang : String)
    (outcome : Nat → Option String) : PoolState → PoolState → Prop
  | complete (s : PoolState) (j : Nat) (hj : j ∈ s.running) :
      PoolStep conc contexts lang outcome s (completeTask conc contexts lang outcome s j)

/-- The states reachable by the pool from its start (the initial dispatch
loop kicked off at line 495). -/
def PoolReaches (conc : Nat) (contexts : List TranslationContext) (lang : String)
    (outcome : Nat → Option String) (s : PoolState) : Prop :=
  Relation.ReflTransGen (PoolStep conc contexts lang outcome)
    (dispatchLoop conc contexts.length (initPoolState contexts.length)) s

/-- Invariant of the translateBatch pool: the results array keeps its
length, dispatch never passes the item count, no index is in flight twice,
in-flight indices were dispatched, the completion count plus the in-flight
count equals the dispatch count, and every dispatched index is either
still in flight or its slot already holds the row determined by its
outcome. -/
def PoolInv (contexts : List TranslationContext) (lang : String)
    (outcome : Nat → Option String) (s : PoolState) : Prop :=
  s.results.length = contexts.length ∧
  s.nextIndex ≤ contexts.length ∧
  s.running.Nodup ∧
  (∀ j ∈ s.running, j < s.nextIndex) ∧
  s.completed + s.running.length = s.nextIndex ∧
  (∀ i, i < s.nextIndex →
    i ∈ s.running ∨ s.results.getD i none = some (itemResult contexts lang outcome i))

/-- Concrete two-item scenario exercising the pool model. -/
def egContexts : List TranslationContext := [⟨"k0", "v0", "", []⟩, ⟨"k1", "v1", "", []⟩]

/-- Concrete external-call outcomes for the scenario: item 0 resolves with
the text A, item 1 rejects. -/
def egOutcome : Nat → Option String := fun i => if i = 0 then some "A" else none

/-! Helper lemmas about the split model. -/

theorem splitAux_ne_nil : ∀ (cs acc : List Char), splitAux cs acc ≠ []
  | [], acc => by simp [splitAux]
  | c :: rest, acc => by
      by_cases h : c = '.'
      · simp [splitAux, h]
      · simpa [splitAux, h] using splitAux_ne_nil rest (c :: acc)

theorem jsSplitDot_ne_nil (s : String) : jsSplitDot s ≠ [] := splitAux_ne_nil s.data []

theorem splitAux_length : ∀ (cs acc : List Char), (splitAux cs acc).length = cs.count '.' + 1
  | [], acc => by simp [splitAux]
  | c :: rest, acc => by
      by_cases h : c = '.'
      · simp [splitAux, h, splitAux_length rest [], List.count_cons]
      · simp [splitAux, h, splitAux_length rest (c :: acc), List.count_cons, Ne.symm h]

theorem jsSplitDot_length (s : String) : (jsSplitDot s).length = s.data.count '.' + 1 :=
  splitAux_length s.data []

theorem splitAux_no_dot : ∀ (cs acc : List Char), '.' ∉ cs → splitAux cs acc = [String.mk (acc.reverse ++ cs)]
  | [], acc => by simp [splitAux]
  | c :: rest, acc => by
      intro h
      have hc : ¬ c = '.' := fun hh => h (by simp [hh])
      have hrest : '.' ∉ rest := fun hh => h (by simp [hh])
      simp [splitAux, hc, splitAux_no_dot rest (c :: acc) hrest]

theorem jsSplitDot_eq_singleton {p x : String} (h : jsSplitDot p = [x]) : p = x := by
  have hlen : (jsSplitDot p).length = 1 := by rw [h]; rfl
  rw [jsSplitDot_length] at hlen
  have hcount : p.data.count '.' = 0 := by omega
  have hnd : '.' ∉ p.data := by
    intro hm
    have := List.count_pos_iff.mpr hm
    omega
  have := splitAux_no_dot p.data [] hnd
  rw [jsSplitDot, this] at h
  have : String.mk p.data = x := by simpa using h
  cases p
  simpa using this

theorem splitAux_seg_no_dot : ∀ (cs acc : List Char), '.' ∉ acc → ∀ s ∈ splitAux cs acc, '.' ∉ s.data
  | [], acc => by
      intro hacc s hs
      simp [splitAux] at hs
      subst hs
      simpa using fun h => hacc (List.mem_reverse.mp h)
  | c :: rest, acc => by
      intro hacc s hs
      by_cases h : c = '.'
      · simp [splitAux, h] at hs
        rcases hs with hs | hs
        · subst hs
          simpa using fun hh => hacc (List.mem_reverse.mp hh)
        · exact splitAux_seg_no_dot rest [] (by simp) s hs
      · simp only [splitAux, if_neg h] at hs
        exact splitAux_seg_no_dot rest (c :: acc) (by simp [hacc, Ne.symm h]) s hs

theorem jsSplitDot_seg_no_dot (p : String) : ∀ s ∈ jsSplitDot p, '.' ∉ s.data :=
  splitAux_seg_no_dot p.data [] (by simp)

/-! Lengths of the flatten traversal: one path per leaf. -/

mutual
theorem flattenKeys_len : ∀ (t : Tree) (pre : String), (flattenKeys t pre).length = countLeafKeys t
  | .str _, _ => by simp [flattenKeys, countLeafKeys]
  | .obj l, pre => by simp [flattenKeys, countLeafKeys, flattenEntries_len l pre]
  | .arr l, pre => by simp [flattenKeys, countLeafKeys, flattenElems_len l 0 pre]

theorem flattenEntries_len : ∀ (l : List (String × Tree)) (pre : String),
    (flattenEntries l pre).length = countLeafEntries l
  | [], _ => by simp [flattenEntries, countLeafEntries]
  | (k, v) :: rest, pre => by
      by_cases h : isObjLike v = true <;>
        simp [flattenEntries, countLeafEntries, h, flattenKeys_len v (joinPre pre k),
          flattenEntries_len rest pre] <;> omega

theorem flattenElems_len : ∀ (l : List Tree) (i : Nat) (pre : String),
    (flattenElems l i pre).length = countLeafList l
  | [], _, _ => by simp [flattenElems, countLeafList]
  | v :: rest, i, pre => by
      by_cases h : isObjLike v = true <;>
        simp [flattenElems, countLeafList, h, flattenKeys_len v (joinPre pre (jsIdx i)),
          flattenElems_len rest (i + 1) pre] <;> omega
end

/-- C9: for every translation tree and starting prefix, the number of key
paths emitted by flattenKeys equals the leaf count of countLeafKeys: the
flatten traversal emits exactly one key path per leaf. -/
theorem flattenKeys_length_eq_countLeafKeys (t : Tree) (pre : String) :
    (flattenKeys t pre).length = countLeafKeys t :=
  flattenKeys_len t pre

/-! Similarity score. -/

theorem similarityScore_of_empty (a b : Finset String) (h : a.card = 0 ∨ b.card = 0) :
    similarityScore a b = 0 := by
  unfold similarityScore
  rw [if_pos h]

theorem similarityScore_formula (a b : Finset String) (ha : a.card ≠ 0) (hb : b.card ≠ 0) :
    similarityScore a b =
      ((a ∩ b).card : ℚ) / (((a.card : ℚ) + (b.card : ℚ)) - ((a ∩ b).card : ℚ)) := by
  rw [similarityScore, if_neg (by tauto)]
  by_cases h : (a ∩ b).card = 0
  · simp [h]
  · simp [h]

theorem similarityScore_comm (a b : Finset String) : similarityScore a b = similarityScore b a := by
  by_cases ha : a.card = 0
  · rw [similarityScore_of_empty a b (Or.inl ha), similarityScore_of_empty b a (Or.inr ha)]
  · by_cases hb : b.card = 0
    · rw [similarityScore_of_empty a b (Or.inr hb), similarityScore_of_empty b a (Or.inl hb)]
    · rw [similarityScore_formula a b ha hb, similarityScore_formula b a hb ha,
        Finset.inter_comm, add_comm]

theorem similarityScore_nonneg (a b : Finset String) : 0 ≤ similarityScore a b := by
  by_cases h : a.card = 0 ∨ b.card = 0
  · rw [similarityScore_of_empty a b h]
  · push_neg at h
    rw [similarityScore_formula a b h.1 h.2]
    have h1 : ((a ∩ b).card : ℚ) ≤ (a.card : ℚ) := by
      exact_mod_cast Finset.card_le_card (Finset.inter_subset_left)
    have h2 : (0 : ℚ) ≤ (b.card : ℚ) := by positivity
    apply div_nonneg (by positivity)
    linarith

theorem similarityScore_le_one (a b : Finset String) : similarityScore a b ≤ 1 := by
  by_cases h : a.card = 0 ∨ b.card = 0
  · rw [similarityScore_of_empty a b h]; norm_num
  · push_neg at h
    rw [similarityScore_formula a b h.1 h.2]
    have h1 : ((a ∩ b).card : ℚ) ≤ (a.card : ℚ) := by
      exact_mod_cast Finset.card_le_card (Finset.inter_subset_left)
    have h2 : ((a ∩ b).card : ℚ) ≤ (b.card : ℚ) := by
      exact_mod_cast Finset.card_le_card (Finset.inter_subset_right)
    have h3 : (1 : ℚ) ≤ (b.card : ℚ) := by
      exact_mod_cast Nat.one_le_iff_ne_zero.mpr h.2
    rw [div_le_one (by linarith)]
    linarith

/-- C8: the similarity score is symmetric, always between 0 and 1, equals
the Jaccard index intersection over union on two nonempty token sets, and
is 0 when either set is empty. -/
theorem similarityScore_symmetry_and_bounds (a b : Finset String) :
    similarityScore a b = similarityScore b a ∧
    0 ≤ similarityScore a b ∧ similarityScore a b ≤ 1 ∧
    (a.Nonempty → b.Nonempty →
      similarityScore a b =
        ((a ∩ b).card : ℚ) / (((a.card : ℚ) + (b.card : ℚ)) - ((a ∩ b).card : ℚ))) ∧
    ((a = ∅ ∨ b = ∅) → similarityScore a b = 0) := by
  refine ⟨similarityScore_comm a b, similarityScore_nonneg a b, similarityScore_le_one a b, ?_, ?_⟩
  · intro ha hb
    exact similarityScore_formula a b (by simpa [Finset.card_eq_zero] using ha.ne_empty)
      (by simpa [Finset.card_eq_zero] using hb.ne_empty)
  · intro h
    exact similarityScore_of_empty a b (by rcases h with h | h <;> simp [h])

/-- C8 witness: the similarity machinery evaluated at two concrete
nonempty token sets sharing one of three tokens. -/
theorem similarityScore_symmetry_and_bounds_witness :
    similarityScore {"alpha", "beta"} {"beta", "gamma"} = 1 / 3 := by
  have h := (similarityScore_symmetry_and_bounds {"alpha", "beta"} {"beta", "gamma"}).2.2.2.1
    ⟨"alpha", by decide⟩ ⟨"beta", by decide⟩
  rw [h]
  have h1 : (({"alpha", "beta"} : Finset String) ∩ {"beta", "gamma"}).card = 1 := by decide
  have h2 : ({"alpha", "beta"} : Finset String).card = 2 := by decide
  have h3 : ({"beta", "gamma"} : Finset String).card = 2 := by decide
  rw [h1, h2, h3]
  norm_num

/-! Counterexamples to the reconciler claims as stated. -/

/-- C1 counterexample: with source a.x a leaf and content holding a
container at the same key, reorderToMatchSource keeps the content's
container, so the path a resolves to a container in the result but to a
leaf in the source — shape preservation fails and the source's shape is
not preferred. -/
theorem reorder_shape_counterexample :
    Option.map shapeOf
        (getValueAtPath
          (reorderToMatchSource (.obj [("a", .str "x")]) (.obj [("a", .obj [("b", .str "y")])]))
          "a")
      ≠ Option.map shapeOf (getValueAtPath (.obj [("a", .str "x")]) "a") := by decide

/-- C7 counterexample: with content holding an empty container at a source
leaf key, the flattened key sequence of the merge result is empty while
the source's is not. -/
theorem reorder_order_counterexample :
    flattenKeys (reorderToMatchSource (.obj [("a", .str "x")]) (.obj [("a", .obj [])])) ""
      ≠ flattenKeys (.obj [("a", .str "x")]) "" := by decide

/-- C6 counterexample: re-merging already-merged content changes it when
the source holds an array directly inside an array — the second merge
rebuilds the inner array as an index-keyed object. -/
theorem reorder_idempotence_counterexample :
    reorderToMatchSource (.obj [("a", .arr [.arr [.str "x"]])])
        (reorderToMatchSource (.obj [("a", .arr [.arr [.str "x"]])]) (.obj []))
      ≠ reorderToMatchSource (.obj [("a", .arr [.arr [.str "x"]])]) (.obj []) := by decide

/-- C10 counterexample: a key path produced by an empty-string key aliases
the root key k whose value is the empty object, so the empty-container key
k appears in typeMismatches of compareTranslations. -/
theorem emptyContainer_counterexample :
    (compareTranslations (.obj [("", .obj [("k", .str "x")]), ("k", .obj [])])
        (.obj [("k", .str "t")])).typeMismatches
      = [⟨"k", .object, .string⟩] ∧
    getValueAtPath (.obj [("", .obj [("k", .str "x")]), ("k", .obj [])]) "k"
      = some (.obj []) := by decide

/-- C4 counterexample: with the pass-through patterns configured to
match description keys, the key sec.description lands in both the
pass-through group and the joint description+links group, so the groups
are not pairwise disjoint and the key produces two translation results. -/
theorem classifier_partition_counterexample :
    "sec.description" ∈
        hrefKeysOf
          (.obj [("sec", .obj [("description", .str "d"),
            ("links", .arr [.obj [("text", .str "t")]])])])
          ["sec.description"] ["*.description"] ∧
    "sec.description" ∈
        descriptionKeysWithLinksOf
          (.obj [("sec", .obj [("description", .str "d"),
            ("links", .arr [.obj [("text", .str "t")]])])])
          ["sec.description"] [] := by decide

/-- C5 counterexample: a provider response that parses as the JSON number
42 is not interpretable as a description+linkTexts structure, yet the
result list is empty — no fallback description-only translation happens,
because only a JSON.parse exception reaches the catch block. -/
theorem linked_fallback_counterexample :
    translateDescriptionWithLinks "sec.description" "d" ["t"] "de" [] (some (.jnum 42)) "FB"
      = [] := rfl

/-! The diff engine: exact characterisation of the type-mismatch list. -/

theorem typeMismatches_eq (source target : Tree) :
    (compareTranslations source target).typeMismatches =
      (flattenKeys source "").filterMap (fun key =>
        if key ∈ flattenKeys target "" then
          if getValueType (getValueAtPath source key) ≠ getValueType (getValueAtPath target key) ∧
             getValueType (getValueAtPath source key) ≠ .undefined ∧
             getValueType (getValueAtPath target key) ≠ .undefined then
            some ⟨key, getValueType (getValueAtPath source key),
              getValueType (getValueAtPath target key)⟩
          else none
        else none) := rfl

/-- C2: the typeMismatches list of compareTranslations holds exactly the
key paths present in both flattened key sets where one side resolves to a
leaf and the other to a container, in both directions, absent paths
excluded; each entry records the two observed shapes. -/
theorem compareTranslations_typeMismatches_exact (source target : Tree) (m : TypeMismatch) :
    m ∈ (compareTranslations source target).typeMismatches ↔
      (m.path ∈ flattenKeys source "" ∧ m.path ∈ flattenKeys target "" ∧
       m.sourceType = getValueType (getValueAtPath source m.path) ∧
       m.targetType = getValueType (getValueAtPath target m.path) ∧
       ((m.sourceType = .string ∧ m.targetType = .object) ∨
        (m.sourceType = .object ∧ m.targetType = .string))) := by
  obtain ⟨p, st0, tt0⟩ := m
  rw [typeMismatches_eq, List.mem_filterMap]
  simp only []
  constructor
  · rintro ⟨key, hkey, hf⟩
    by_cases h1 : key ∈ flattenKeys target ""
    · rw [if_pos h1] at hf
      by_cases h2 : getValueType (getValueAtPath source key) ≠ getValueType (getValueAtPath target key) ∧
          getValueType (getValueAtPath source key) ≠ .undefined ∧
          getValueType (getValueAtPath target key) ≠ .undefined
      · rw [if_pos h2] at hf
        injection hf with hf
        injection hf with e1 e2 e3
        subst e1; subst e2; subst e3
        refine ⟨hkey, h1, rfl, rfl, ?_⟩
        obtain ⟨hne, hsu, htu⟩ := h2
        cases hs : getValueType (getValueAtPath source key) <;>
          cases ht : getValueType (getValueAtPath target key) <;>
            simp_all
      · rw [if_neg h2] at hf
        exact absurd hf (by simp)
    · rw [if_neg h1] at hf
      exact absurd hf (by simp)
  · rintro ⟨h1, h2, h3, h4, h5⟩
    refine ⟨p, h1, ?_⟩
    rw [if_pos h2]
    have hcond : getValueType (getValueAtPath source p) ≠ getValueType (getValueAtPath target p) ∧
        getValueType (getValueAtPath source p) ≠ .undefined ∧
        getValueType (getValueAtPath target p) ≠ .undefined := by
      rw [← h3, ← h4]
      rcases h5 with ⟨ha, hb⟩ | ⟨ha, hb⟩ <;> subst ha <;> subst hb <;> simp
    rw [if_pos hcond, ← h3, ← h4]
/-! Reconciler machinery: merged entry lists seen through lookup.  The
mutually recursive functions over the nested Tree type do not reduce
definitionally on variable-headed arguments, so every unfolding below
goes through their generated equation lemmas. -/

theorem mergeElems_cons (si ci : Tree) (ss cs : List Tree) :
    mergeElems (si :: ss) (ci :: cs) = elemMerge si ci :: mergeElems ss cs := by
  rw [mergeElems.eq_def]
  rfl

theorem safeElems_cons (si ci : Tree) (ss cs : List Tree) :
    safeElems (si :: ss) (ci :: cs) = (elemSafe si ci && safeElems ss cs) := by
  rw [safeElems.eq_def]
  rfl

theorem getKey_obj (X : List (String × Tree)) (s : String) : getKey (.obj X) s = lookupKey X s := by
  simp [getKey, entriesOf]

theorem getKey_arr (L : List Tree) (s : String) : getKey (.arr L) s = lookupKey (idxPairs L 0) s := by
  simp [getKey, entriesOf]

theorem getKey_str (a s : String) : getKey (.str a) s = none := by
  simp [getKey, entriesOf, lookupKey]

theorem resolveSegs_cons_none {t : Tree} {p : String} {rest : List String}
    (h : getKey t p = none) : resolveSegs t (p :: rest) = none := by
  simp [resolveSegs, h]

theorem resolveSegs_cons_some {t v : Tree} {p : String} {rest : List String}
    (h : getKey t p = some v) : resolveSegs t (p :: rest) = resolveSegs v rest := by
  simp [resolveSegs, h]

theorem resolveSegs_nil (t : Tree) : resolveSegs t [] = some t := by simp [resolveSegs]

theorem lookupKey_reorderObjEntries (l : List (String × Tree)) (c : Tree) (s : String) :
    lookupKey (reorderObjEntries l c) s =
      Option.map (fun sv => mergeVal sv (getKey c s)) (lookupKey l s) := by
  induction l with
  | nil => simp [reorderObjEntries, lookupKey]
  | cons p rest ih =>
      obtain ⟨k, sv⟩ := p
      by_cases h : k = s
      · subst h
        simp [reorderObjEntries, lookupKey]
      · simp [reorderObjEntries, lookupKey, h, ih]

theorem lookupKey_reorderArrEntries (l : List Tree) (c : Tree) (s : String) :
    ∀ i, lookupKey (reorderArrEntries l i c) s =
      Option.map (fun sv => mergeVal sv (getKey c s)) (lookupKey (idxPairs l i) s) := by
  induction l with
  | nil => intro i; simp [reorderArrEntries, idxPairs, lookupKey]
  | cons sv rest ih =>
      intro i
      by_cases h : jsIdx i = s
      · subst h
        simp [reorderArrEntries, idxPairs, lookupKey]
      · simp [reorderArrEntries, idxPairs, lookupKey, h, ih (i + 1)]

theorem safeVal_of_lookup : ∀ (l : List (String × Tree)) (c : Tree) (s : String) (sv : Tree),
    safeObjEntries l c = true → lookupKey l s = some sv → safeVal sv (getKey c s) = true
  | [], _, _, _, _, hl => by simp [lookupKey] at hl
  | (k, v) :: rest, c, s, sv, h, hl => by
      have h12 : safeVal v (getKey c k) = true ∧ safeObjEntries rest c = true := by
        simpa [safeObjEntries, Bool.and_eq_true] using h
      by_cases hk : k = s
      · subst hk
        simp [lookupKey] at hl
        subst hl
        exact h12.1
      · simp only [lookupKey, if_neg hk] at hl
        exact safeVal_of_lookup rest c s sv h12.2 hl

theorem safeVal_of_lookup_arr : ∀ (l : List Tree) (i : Nat) (c : Tree) (s : String) (sv : Tree),
    safeArrEntries l i c = true → lookupKey (idxPairs l i) s = some sv →
    safeVal sv (getKey c s) = true
  | [], _, _, _, _, _, hl => by simp [idxPairs, lookupKey] at hl
  | v :: rest, i, c, s, sv, h, hl => by
      have h12 : safeVal v (getKey c (jsIdx i)) = true ∧ safeArrEntries rest (i + 1) c = true := by
        simpa [safeArrEntries, Bool.and_eq_true] using h
      by_cases hk : jsIdx i = s
      · subst hk
        simp [idxPairs, lookupKey] at hl
        subst hl
        exact h12.1
      · simp only [idxPairs, lookupKey, if_neg hk] at hl
        exact safeVal_of_lookup_arr rest (i + 1) c s sv h12.2 hl

theorem lookup_mergeElems : ∀ (l m : List Tree) (i : Nat) (s : String), l.length = m.length →
    safeElems l m = true →
    (lookupKey (idxPairs (mergeElems l m) i) s = none ∧ lookupKey (idxPairs l i) s = none) ∨
    (∃ si ci, lookupKey (idxPairs l i) s = some si ∧
      lookupKey (idxPairs (mergeElems l m) i) s = some (elemMerge si ci) ∧
      elemSafe si ci = true)
  | [], m, i, s, _, _ => by
      left
      constructor
      · simp [mergeElems, idxPairs, lookupKey]
      · simp [idxPairs, lookupKey]
  | _ :: _, [], _, _, hlen, _ => by simp at hlen
  | si :: ss, ci :: cs, i, s, hlen, hsafe => by
      have hs : elemSafe si ci = true ∧ safeElems ss cs = true := by
        simpa [safeElems_cons, Bool.and_eq_true] using hsafe
      rw [mergeElems_cons]
      by_cases hkey : jsIdx i = s
      · right
        exact ⟨si, ci, by simp [idxPairs, lookupKey, hkey],
          by simp [idxPairs, lookupKey, hkey], hs.1⟩
      · have := lookup_mergeElems ss cs (i + 1) s (by simpa using hlen) hs.2
        simpa [idxPairs, lookupKey, hkey] using this

/-! Shape preservation of the merge under the safety condition. -/

theorem mergeVal_obj_obj (l : List (String × Tree)) (m : List (String × Tree)) :
    mergeVal (.obj l) (some (.obj m)) = .obj (reorderObjEntries l (.obj m)) := by
  simp [mergeVal]

theorem safeVal_obj_obj (l m : List (String × Tree)) :
    safeVal (.obj l) (some (.obj m)) = safeObjEntries l (.obj m) := by
  simp [safeVal]

theorem mergeVal_arr_arr_eq {l m : List Tree} (hlen : l.length = m.length) :
    mergeVal (.arr l) (some (.arr m)) = .arr (mergeElems l m) := by
  simp [mergeVal, hlen]

theorem mergeVal_arr_arr_ne {l m : List Tree} (hlen : ¬ l.length = m.length) :
    mergeVal (.arr l) (some (.arr m)) = .arr l := by
  simp [mergeVal, hlen]

theorem safeVal_arr_arr_eq {l m : List Tree} (hlen : l.length = m.length) :
    safeVal (.arr l) (some (.arr m)) = safeElems l m := by
  simp [safeVal, hlen]

theorem elemMerge_obj {ci : Tree} (l' : List (String × Tree)) (hc : isObjLike ci = true) :
    elemMerge (.obj l') ci = .obj (reorderObjEntries l' ci) := by
  unfold elemMerge
  rw [if_pos hc]

theorem elemMerge_arr {ci : Tree} (l' : List Tree) (hc : isObjLike ci = true) :
    elemMerge (.arr l') ci = .obj (reorderArrEntries l' 0 ci) := by
  unfold elemMerge
  rw [if_pos hc]

theorem elemMerge_str (a : String) (ci : Tree) : elemMerge (.str a) ci = ci := by
  unfold elemMerge
  split <;> rfl

theorem elemSafe_obj (l' : List (String × Tree)) (ci : Tree) (h : elemSafe (.obj l') ci = true) :
    isObjLike ci = true ∧ safeObjEntries l' ci = true := by
  simpa [elemSafe, Bool.and_eq_true] using h

theorem elemSafe_arr (l' : List Tree) (ci : Tree) (h : elemSafe (.arr l') ci = true) :
    isObjLike ci = true ∧ safeArrEntries l' 0 ci = true := by
  simpa [elemSafe, Bool.and_eq_true] using h

theorem elemSafe_str (a : String) (ci : Tree) (h : elemSafe (.str a) ci = true) :
    isObjLike ci = false := by
  simpa [elemSafe, Bool.not_eq_true'] using h

theorem shapeOf_mergeVal (sv : Tree) (cv : Option Tree) (h : safeVal sv cv = true) :
    shapeOf (mergeVal sv cv) = shapeOf sv := by
  cases sv with
  | str a =>
      cases cv with
      | none => simp [mergeVal]
      | some c =>
          cases c with
          | str b => simp [mergeVal, shapeOf]
          | obj m => simp [safeVal] at h
          | arr m => simp [safeVal] at h
  | obj l =>
      cases cv with
      | none => simp [mergeVal]
      | some c => cases c <;> simp [mergeVal, shapeOf]
  | arr l =>
      cases cv with
      | none => simp [mergeVal]
      | some c =>
          cases c with
          | str b => simp [mergeVal]
          | obj m => simp [mergeVal]
          | arr m =>
              by_cases hlen : l.length = m.length
              · rw [mergeVal_arr_arr_eq hlen]
                rfl
              · rw [mergeVal_arr_arr_ne hlen]

theorem isObjLike_mergeVal (sv : Tree) (cv : Option Tree) (h : safeVal sv cv = true) :
    isObjLike (mergeVal sv cv) = isObjLike sv := by
  cases sv with
  | str a =>
      cases cv with
      | none => simp [mergeVal]
      | some c =>
          cases c with
          | str b => simp [mergeVal, isObjLike]
          | obj m => simp [safeVal] at h
          | arr m => simp [safeVal] at h
  | obj l =>
      cases cv with
      | none => simp [mergeVal]
      | some c => cases c <;> simp [mergeVal, isObjLike]
  | arr l =>
      cases cv with
      | none => simp [mergeVal]
      | some c =>
          cases c with
          | str b => simp [mergeVal]
          | obj m => simp [mergeVal]
          | arr m =>
              by_cases hlen : l.length = m.length
              · rw [mergeVal_arr_arr_eq hlen]
                rfl
              · rw [mergeVal_arr_arr_ne hlen]

theorem isObjLike_elemMerge (si ci : Tree) (h : elemSafe si ci = true) :
    isObjLike (elemMerge si ci) = isObjLike si := by
  cases si with
  | obj l' =>
      rw [elemMerge_obj l' (elemSafe_obj l' ci h).1]
      rfl
  | arr l' =>
      rw [elemMerge_arr l' (elemSafe_arr l' ci h).1]
      rfl
  | str a =>
      rw [elemMerge_str]
      rw [elemSafe_str a ci h]
      simp [isObjLike]

theorem resolve_shape_of_leaves (a b : Tree) (ha : isObjLike a = false) (hb : isObjLike b = false)
    (segs : List String) :
    (resolveSegs a segs).map shapeOf = (resolveSegs b segs).map shapeOf := by
  cases a with
  | obj l => simp [isObjLike] at ha
  | arr l => simp [isObjLike] at ha
  | str x =>
      cases b with
      | obj l => simp [isObjLike] at hb
      | arr l => simp [isObjLike] at hb
      | str y =>
          cases segs with
          | nil => simp [resolveSegs, shapeOf]
          | cons p rest => rw [resolveSegs_cons_none (getKey_str x p),
              resolveSegs_cons_none (getKey_str y p)]

theorem shape_resolve_aux (segs : List String) :
    (∀ (sv : Tree) (cv : Option Tree), safeVal sv cv = true →
      (resolveSegs (mergeVal sv cv) segs).map shapeOf = (resolveSegs sv segs).map shapeOf) ∧
    (∀ (t c : Tree), isObjLike t = true → mergeSafe t c = true →
      (resolveSegs (reorderToMatchSource t c) segs).map shapeOf =
        (resolveSegs t segs).map shapeOf) := by
  induction segs with
  | nil =>
      constructor
      · intro sv cv h
        simp [resolveSegs_nil, shapeOf_mergeVal sv cv h]
      · intro t c ht _
        cases t with
        | str a => simp [isObjLike] at ht
        | obj l => simp [resolveSegs_nil, reorderToMatchSource, shapeOf]
        | arr l => simp [resolveSegs_nil, reorderToMatchSource, shapeOf]
  | cons s rest ih =>
      constructor
      · intro sv cv h
        cases sv with
        | obj l =>
            cases cv with
            | none => simp [mergeVal]
            | some c =>
                cases c with
                | str b => simp [mergeVal]
                | arr m => simp [mergeVal]
                | obj m =>
                    have hsafe : safeObjEntries l (.obj m) = true := by
                      rw [← safeVal_obj_obj]; exact h
                    rw [mergeVal_obj_obj]
                    cases hl : lookupKey l s with
                    | none =>
                        rw [resolveSegs_cons_none (by rw [getKey_obj, lookupKey_reorderObjEntries, hl]; rfl),
                          resolveSegs_cons_none (by rw [getKey_obj, hl])]
                    | some sv' =>
                        rw [resolveSegs_cons_some (t := Tree.obj (reorderObjEntries l (.obj m)))
                            (v := mergeVal sv' (getKey (.obj m) s))
                            (by rw [getKey_obj, lookupKey_reorderObjEntries, hl]; rfl),
                          resolveSegs_cons_some (by rw [getKey_obj, hl])]
                        exact ih.1 sv' (getKey (.obj m) s)
                          (safeVal_of_lookup l (.obj m) s sv' hsafe hl)
        | arr l =>
            cases cv with
            | none => simp [mergeVal]
            | some c =>
                cases c with
                | str b => simp [mergeVal]
                | obj m => simp [mergeVal]
                | arr m =>
                    by_cases hlen : l.length = m.length
                    · have hsafe : safeElems l m = true := by
                        rw [← safeVal_arr_arr_eq hlen]; exact h
                      rw [mergeVal_arr_arr_eq hlen]
                      rcases lookup_mergeElems l m 0 s hlen hsafe with ⟨h1, h2⟩ | ⟨si, ci, h1, h2, h3⟩
                      · rw [resolveSegs_cons_none (by rw [getKey_arr]; exact h1),
                          resolveSegs_cons_none (by rw [getKey_arr]; exact h2)]
                      · rw [resolveSegs_cons_some (by rw [getKey_arr]; exact h2),
                          resolveSegs_cons_some (by rw [getKey_arr]; exact h1)]
                        cases si with
                        | obj l' =>
                            have hc := elemSafe_obj l' ci h3
                            rw [elemMerge_obj l' hc.1]
                            have hrw : Tree.obj (reorderObjEntries l' ci)
                                = reorderToMatchSource (.obj l') ci := rfl
                            rw [hrw]
                            exact ih.2 (.obj l') ci rfl hc.2
                        | arr l' =>
                            have hc := elemSafe_arr l' ci h3
                            rw [elemMerge_arr l' hc.1]
                            have hrw : Tree.obj (reorderArrEntries l' 0 ci)
                                = reorderToMatchSource (.arr l') ci := rfl
                            rw [hrw]
                            exact ih.2 (.arr l') ci rfl hc.2
                        | str a =>
                            have hc := elemSafe_str a ci h3
                            rw [elemMerge_str]
                            exact resolve_shape_of_leaves ci (.str a) hc rfl rest
                    · rw [mergeVal_arr_arr_ne hlen]
        | str a =>
            cases cv with
            | none => simp [mergeVal]
            | some c =>
                cases c with
                | str b =>
                    have hmv : mergeVal (.str a) (some (.str b)) = .str b := by simp [mergeVal]
                    rw [hmv]
                    exact resolve_shape_of_leaves (.str b) (.str a) rfl rfl (s :: rest)
                | obj m => simp [safeVal] at h
                | arr m => simp [safeVal] at h
      · intro t c ht h
        cases t with
        | str a => simp [isObjLike] at ht
        | obj l =>
            have hsafe : safeObjEntries l c = true := h
            have hrw : reorderToMatchSource (.obj l) c = .obj (reorderObjEntries l c) := rfl
            rw [hrw]
            cases hl : lookupKey l s with
            | none =>
                rw [resolveSegs_cons_none (by rw [getKey_obj, lookupKey_reorderObjEntries, hl]; rfl),
                  resolveSegs_cons_none (by rw [getKey_obj, hl])]
            | some sv' =>
                rw [resolveSegs_cons_some (t := Tree.obj (reorderObjEntries l c))
                    (v := mergeVal sv' (getKey c s))
                    (by rw [getKey_obj, lookupKey_reorderObjEntries, hl]; rfl),
                  resolveSegs_cons_some (by rw [getKey_obj, hl])]
                exact ih.1 sv' (getKey c s) (safeVal_of_lookup l c s sv' hsafe hl)
        | arr l =>
            have hsafe : safeArrEntries l 0 c = true := h
            have hrw : reorderToMatchSource (.arr l) c = .obj (reorderArrEntries l 0 c) := rfl
            rw [hrw]
            cases hl : lookupKey (idxPairs l 0) s with
            | none =>
                rw [resolveSegs_cons_none
                    (by rw [getKey_obj, lookupKey_reorderArrEntries l c s 0, hl]; rfl),
                  resolveSegs_cons_none (by rw [getKey_arr, hl])]
            | some sv' =>
                rw [resolveSegs_cons_some (t := Tree.obj (reorderArrEntries l 0 c))
                    (v := mergeVal sv' (getKey c s))
                    (by rw [getKey_obj, lookupKey_reorderArrEntries l c s 0, hl]; rfl),
                  resolveSegs_cons_some (by rw [getKey_arr, hl])]
                exact ih.1 sv' (getKey c s) (safeVal_of_lookup_arr l 0 c s sv' hsafe hl)

/-- C1 amended: whenever the content is merge-safe for the source — at
every key both sides define, the container/leaf shapes agree, recursively,
and same-length array element pairs are two containers or two leaves —
every key path resolves in reorderToMatchSource(S, C) to the same
container/leaf shape as in S.  Without that proviso the code takes the
content's shape at leaf keys and inside matched arrays, as the
counterexample shows. -/
theorem reorderToMatchSource_shape_preservation (source content : Tree)
    (h : mergeSafe source content = true) (p : String) :
    Option.map shapeOf (getValueAtPath (reorderToMatchSource source content) p) =
      Option.map shapeOf (getValueAtPath source p) := by
  unfold getValueAtPath
  obtain ⟨s, rest, hsplit⟩ : ∃ s rest, jsSplitDot p = s :: rest := by
    cases hh : jsSplitDot p with
    | nil => exact absurd hh (jsSplitDot_ne_nil p)
    | cons a b => exact ⟨a, b, rfl⟩
  rw [hsplit]
  cases source with
  | str a =>
      have hrw : reorderToMatchSource (.str a) content = .obj [] := rfl
      rw [hrw, resolveSegs_cons_none (by rw [getKey_obj]; simp [lookupKey]),
        resolveSegs_cons_none (getKey_str a s)]
  | obj l => exact (shape_resolve_aux (s :: rest)).2 (.obj l) content rfl h
  | arr l => exact (shape_resolve_aux (s :: rest)).2 (.arr l) content rfl h

/-- C1 witness: shape preservation applied to a concrete source with a
links array and a merge-safe concrete content, at a concrete key path. -/
theorem reorderToMatchSource_shape_preservation_witness :
    Option.map shapeOf
        (getValueAtPath
          (reorderToMatchSource
            (.obj [("links", .arr [.obj [("text", .str "Go")]]), ("title", .str "T")])
            (.obj [("links", .arr [.obj [("text", .str "Ir")]])]))
          "links.0.text")
      = Option.map shapeOf
          (getValueAtPath
            (.obj [("links", .arr [.obj [("text", .str "Go")]]), ("title", .str "T")])
            "links.0.text") :=
  reorderToMatchSource_shape_preservation
    (.obj [("links", .arr [.obj [("text", .str "Go")]]), ("title", .str "T")])
    (.obj [("links", .arr [.obj [("text", .str "Ir")]])]) (by decide) "links.0.text"
/-! Per-pattern unfold lemmas for the merge, kernel-checked through the
generated equation lemmas. -/

theorem mergeVal_obj_str (l : List (String × Tree)) (b : String) :
    mergeVal (.obj l) (some (.str b)) = .obj l := by rw [mergeVal.eq_def]

theorem mergeVal_obj_arr (l : List (String × Tree)) (m : List Tree) :
    mergeVal (.obj l) (some (.arr m)) = .obj l := by rw [mergeVal.eq_def]

theorem mergeVal_obj_none (l : List (String × Tree)) : mergeVal (.obj l) none = .obj l := by
  rw [mergeVal.eq_def]

theorem mergeVal_arr_obj (l : List Tree) (m : List (String × Tree)) :
    mergeVal (.arr l) (some (.obj m)) = .arr l := by rw [mergeVal.eq_def]

theorem mergeVal_arr_str (l : List Tree) (b : String) :
    mergeVal (.arr l) (some (.str b)) = .arr l := by rw [mergeVal.eq_def]

theorem mergeVal_arr_none (l : List Tree) : mergeVal (.arr l) none = .arr l := by
  rw [mergeVal.eq_def]

theorem mergeVal_str_some (a : String) (cv : Tree) : mergeVal (.str a) (some cv) = cv := by
  rw [mergeVal.eq_def]

theorem mergeVal_str_none (a : String) : mergeVal (.str a) none = .str a := by
  rw [mergeVal.eq_def]

theorem safeVal_str_obj (a : String) (m : List (String × Tree)) :
    safeVal (.str a) (some (.obj m)) = false := by rw [safeVal.eq_def]

theorem safeVal_str_arr (a : String) (m : List Tree) :
    safeVal (.str a) (some (.arr m)) = false := by rw [safeVal.eq_def]

theorem mergeElems_nil (m : List Tree) : mergeElems [] m = [] := by rw [mergeElems.eq_def]

theorem reorderObjEntries_nil (c : Tree) : reorderObjEntries [] c = [] := by
  rw [reorderObjEntries.eq_def]

theorem reorderObjEntries_cons (k : String) (sv : Tree) (rest : List (String × Tree)) (c : Tree) :
    reorderObjEntries ((k, sv) :: rest) c =
      (k, mergeVal sv (getKey c k)) :: reorderObjEntries rest c := by
  rw [reorderObjEntries.eq_def]

theorem reorderArrEntries_nil (i : Nat) (c : Tree) : reorderArrEntries [] i c = [] := by
  rw [reorderArrEntries.eq_def]

theorem reorderArrEntries_cons (sv : Tree) (rest : List Tree) (i : Nat) (c : Tree) :
    reorderArrEntries (sv :: rest) i c =
      (jsIdx i, mergeVal sv (getKey c (jsIdx i))) :: reorderArrEntries rest (i + 1) c := by
  rw [reorderArrEntries.eq_def]

theorem safeObjEntries_cons (k : String) (sv : Tree) (rest : List (String × Tree)) (c : Tree) :
    safeObjEntries ((k, sv) :: rest) c = (safeVal sv (getKey c k) && safeObjEntries rest c) := by
  rw [safeObjEntries.eq_def]

theorem safeArrEntries_cons (sv : Tree) (rest : List Tree) (i : Nat) (c : Tree) :
    safeArrEntries (sv :: rest) i c =
      (safeVal sv (getKey c (jsIdx i)) && safeArrEntries rest (i + 1) c) := by
  rw [safeArrEntries.eq_def]

theorem flattenKeys_str (a : String) (pre : String) : flattenKeys (.str a) pre = [] := by
  rw [flattenKeys.eq_def]

theorem flattenKeys_obj (l : List (String × Tree)) (pre : String) :
    flattenKeys (.obj l) pre = flattenEntries l pre := by rw [flattenKeys.eq_def]

theorem flattenKeys_arr (l : List Tree) (pre : String) :
    flattenKeys (.arr l) pre = flattenElems l 0 pre := by rw [flattenKeys.eq_def]

theorem flattenEntries_nil (pre : String) : flattenEntries [] pre = [] := by
  rw [flattenEntries.eq_def]

theorem flattenEntries_cons (k : String) (v : Tree) (rest : List (String × Tree)) (pre : String) :
    flattenEntries ((k, v) :: rest) pre =
      (if isObjLike v then flattenKeys v (joinPre pre k) else [joinPre pre k])
        ++ flattenEntries rest pre := by
  rw [flattenEntries.eq_def]

theorem flattenElems_nil (i : Nat) (pre : String) : flattenElems [] i pre = [] := by
  rw [flattenElems.eq_def]

theorem flattenElems_cons (v : Tree) (rest : List Tree) (i : Nat) (pre : String) :
    flattenElems (v :: rest) i pre =
      (if isObjLike v then flattenKeys v (joinPre pre (jsIdx i)) else [joinPre pre (jsIdx i)])
        ++ flattenElems rest (i + 1) pre := by
  rw [flattenElems.eq_def]

/-! Flatten preservation of the merge under the safety condition. -/

mutual
theorem flatten_reorderObjEntries : ∀ (l : List (String × Tree)) (c : Tree) (pre : String),
    safeObjEntries l c = true → flattenEntries (reorderObjEntries l c) pre = flattenEntries l pre
  | [], c, pre, _ => by rw [reorderObjEntries_nil]
  | (k, sv) :: rest, c, pre, h => by
      have h12 : safeVal sv (getKey c k) = true ∧ safeObjEntries rest c = true := by
        rw [safeObjEntries_cons, Bool.and_eq_true] at h
        exact h
      rw [reorderObjEntries_cons, flattenEntries_cons, flattenEntries_cons,
        isObjLike_mergeVal sv (getKey c k) h12.1,
        flatten_mergeVal sv (getKey c k) (joinPre pre k) h12.1,
        flatten_reorderObjEntries rest c pre h12.2]

theorem flatten_reorderArrEntries : ∀ (l : List Tree) (i : Nat) (c : Tree) (pre : String),
    safeArrEntries l i c = true → flattenEntries (reorderArrEntries l i c) pre = flattenElems l i pre
  | [], i, c, pre, _ => by rw [reorderArrEntries_nil, flattenEntries_nil, flattenElems_nil]
  | sv :: rest, i, c, pre, h => by
      have h12 : safeVal sv (getKey c (jsIdx i)) = true ∧ safeArrEntries rest (i + 1) c = true := by
        rw [safeArrEntries_cons, Bool.and_eq_true] at h
        exact h
      rw [reorderArrEntries_cons, flattenEntries_cons, flattenElems_cons,
        isObjLike_mergeVal sv (getKey c (jsIdx i)) h12.1,
        flatten_mergeVal sv (getKey c (jsIdx i)) (joinPre pre (jsIdx i)) h12.1,
        flatten_reorderArrEntries rest (i + 1) c pre h12.2]

theorem flatten_mergeVal : ∀ (sv : Tree) (cv : Option Tree) (pre : String), safeVal sv cv = true →
    flattenKeys (mergeVal sv cv) pre = flattenKeys sv pre
  | .obj l, some (.obj m), pre, h => by
      have hs : safeObjEntries l (.obj m) = true := by rw [← safeVal_obj_obj]; exact h
      rw [mergeVal_obj_obj, flattenKeys_obj, flattenKeys_obj]
      exact flatten_reorderObjEntries l (.obj m) pre hs
  | .obj l, some (.str b), pre, _ => by rw [mergeVal_obj_str]
  | .obj l, some (.arr m), pre, _ => by rw [mergeVal_obj_arr]
  | .obj l, none, pre, _ => by rw [mergeVal_obj_none]
  | .arr l, some (.arr m), pre, h => by
      by_cases hlen : l.length = m.length
      · have hs : safeElems l m = true := by rw [← safeVal_arr_arr_eq hlen]; exact h
        rw [mergeVal_arr_arr_eq hlen, flattenKeys_arr, flattenKeys_arr]
        exact flatten_mergeElems l m 0 pre hlen hs
      · rw [mergeVal_arr_arr_ne hlen]
  | .arr l, some (.obj m), pre, _ => by rw [mergeVal_arr_obj]
  | .arr l, some (.str b), pre, _ => by rw [mergeVal_arr_str]
  | .arr l, none, pre, _ => by rw [mergeVal_arr_none]
  | .str a, some (.str b), pre, _ => by rw [mergeVal_str_some, flattenKeys_str, flattenKeys_str]
  | .str a, some (.obj m), _, h => by rw [safeVal_str_obj] at h; exact Bool.noConfusion h
  | .str a, some (.arr m), _, h => by rw [safeVal_str_arr] at h; exact Bool.noConfusion h
  | .str a, none, pre, _ => by rw [mergeVal_str_none]

theorem flatten_mergeElems : ∀ (l m : List Tree) (i : Nat) (pre : String), l.length = m.length →
    safeElems l m = true → flattenElems (mergeElems l m) i pre = flattenElems l i pre
  | [], m, i, pre, _, _ => by rw [mergeElems_nil]
  | _ :: _, [], _, _, hlen, _ => by simp at hlen
  | si :: ss, ci :: cs, i, pre, hlen, hsafe => by
      have hs : elemSafe si ci = true ∧ safeElems ss cs = true := by
        rw [safeElems_cons, Bool.and_eq_true] at hsafe
        exact hsafe
      rw [mergeElems_cons, flattenElems_cons, flattenElems_cons,
        isObjLike_elemMerge si ci hs.1,
        flatten_elemMerge si ci hs.1 (joinPre pre (jsIdx i)),
        flatten_mergeElems ss cs (i + 1) pre (by simpa using hlen) hs.2]

theorem flatten_elemMerge : ∀ (si ci : Tree), elemSafe si ci = true →
    ∀ pre, flattenKeys (elemMerge si ci) pre = flattenKeys si pre
  | .obj l', ci, h, pre => by
      have hc := elemSafe_obj l' ci h
      rw [elemMerge_obj l' hc.1, flattenKeys_obj, flattenKeys_obj]
      exact flatten_reorderObjEntries l' ci pre hc.2
  | .arr l', ci, h, pre => by
      have hc := elemSafe_arr l' ci h
      rw [elemMerge_arr l' hc.1, flattenKeys_obj, flattenKeys_arr]
      exact flatten_reorderArrEntries l' 0 ci pre hc.2
  | .str a, ci, h, pre => by
      have hc := elemSafe_str a ci h
      cases ci with
      | str b => rw [elemMerge_str, flattenKeys_str, flattenKeys_str]
      | obj m => simp [isObjLike] at hc
      | arr m => simp [isObjLike] at hc
end

/-- C7 amended: whenever the content is merge-safe for the source (the
condition of the shape preservation theorem), the flattened key-path
sequence of reorderToMatchSource(S, C) equals that of S, for every
starting prefix.  Without that proviso a content container at a source
leaf key changes the flattened sequence, as the counterexample shows. -/
theorem reorderToMatchSource_order_preservation (source content : Tree)
    (h : mergeSafe source content = true) (pre : String) :
    flattenKeys (reorderToMatchSource source content) pre = flattenKeys source pre := by
  cases source with
  | str a =>
      have hrw : reorderToMatchSource (.str a) content = .obj [] := rfl
      rw [hrw, flattenKeys_obj, flattenEntries_nil, flattenKeys_str]
  | obj l =>
      have hrw : reorderToMatchSource (.obj l) content = .obj (reorderObjEntries l content) := rfl
      rw [hrw, flattenKeys_obj, flattenKeys_obj]
      exact flatten_reorderObjEntries l content pre h
  | arr l =>
      have hrw : reorderToMatchSource (.arr l) content = .obj (reorderArrEntries l 0 content) := rfl
      rw [hrw, flattenKeys_obj, flattenKeys_arr]
      exact flatten_reorderArrEntries l 0 content pre h

/-- C7 witness: order preservation applied to a concrete merge-safe pair. -/
theorem reorderToMatchSource_order_preservation_witness :
    flattenKeys
        (reorderToMatchSource
          (.obj [("title", .str "Hello"), ("items", .arr [.str "a", .str "b"])])
          (.obj [("items", .arr [.str "x", .str "y"]), ("title", .str "Hallo")]))
        ""
      = flattenKeys (.obj [("title", .str "Hello"), ("items", .arr [.str "a", .str "b"])]) "" :=
  reorderToMatchSource_order_preservation
    (.obj [("title", .str "Hello"), ("items", .arr [.str "a", .str "b"])])
    (.obj [("items", .arr [.str "x", .str "y"]), ("title", .str "Hallo")]) (by decide) ""
/-! Idempotence machinery: well-formedness extraction and unfold lemmas. -/

theorem elemMerge_nonObj (si ci : Tree) (hc : isObjLike ci = false) : elemMerge si ci = ci := by
  unfold elemMerge
  rw [if_neg (by simp [hc])]

theorem mergeElems_cons_nil (x : Tree) (xs : List Tree) : mergeElems (x :: xs) [] = [] := by
  rw [mergeElems.eq_def]

theorem mergeElems_length : ∀ (l m : List Tree), l.length = m.length →
    (mergeElems l m).length = l.length
  | [], m, _ => by rw [mergeElems_nil]
  | _ :: _, [], hlen => by simp at hlen
  | si :: ss, ci :: cs, hlen => by
      rw [mergeElems_cons]
      simp only [List.length_cons]
      rw [mergeElems_length ss cs (by simpa using hlen)]

theorem wfKeys_str (a : String) : wfKeys (.str a) = true := by rw [wfKeys.eq_def]

theorem wfKeys_obj (l : List (String × Tree)) : wfKeys (.obj l) = wfKeysEntries l := by
  rw [wfKeys.eq_def]

theorem wfKeys_arr (l : List Tree) : wfKeys (.arr l) = wfKeysList l := by rw [wfKeys.eq_def]

theorem wfKeysEntries_cons (k : String) (v : Tree) (rest : List (String × Tree)) :
    wfKeysEntries ((k, v) :: rest) =
      (!(rest.any fun p => p.1 == k) && wfKeys v && wfKeysEntries rest) := by
  rw [wfKeysEntries.eq_def]

theorem wfKeysList_cons (v : Tree) (rest : List Tree) :
    wfKeysList (v :: rest) = (wfKeys v && wfKeysList rest) := by
  rw [wfKeysList.eq_def]

theorem noNestedArr_str (a : String) : noNestedArr (.str a) = true := by rw [noNestedArr.eq_def]

theorem noNestedArr_obj (l : List (String × Tree)) :
    noNestedArr (.obj l) = noNestedArrEntries l := by rw [noNestedArr.eq_def]

theorem noNestedArr_arr (l : List Tree) : noNestedArr (.arr l) = noNestedArrList l := by
  rw [noNestedArr.eq_def]

theorem noNestedArrEntries_cons (k : String) (v : Tree) (rest : List (String × Tree)) :
    noNestedArrEntries ((k, v) :: rest) = (noNestedArr v && noNestedArrEntries rest) := by
  rw [noNestedArrEntries.eq_def]

theorem wfKeysEntries_forall : ∀ (l : List (String × Tree)), wfKeysEntries l = true →
    ∀ p ∈ l, wfKeys p.2 = true
  | [], _, p, hp => by simp at hp
  | (k, v) :: rest, h, p, hp => by
      rw [wfKeysEntries_cons] at h
      simp only [Bool.and_eq_true] at h
      rcases List.mem_cons.mp hp with hp | hp
      · subst hp
        exact h.1.2
      · exact wfKeysEntries_forall rest h.2 p hp

theorem wfKeysEntries_lookup : ∀ (l : List (String × Tree)), wfKeysEntries l = true →
    ∀ p ∈ l, lookupKey l p.1 = some p.2
  | [], _, p, hp => by simp at hp
  | (k, v) :: rest, h, p, hp => by
      rw [wfKeysEntries_cons] at h
      simp only [Bool.and_eq_true] at h
      rcases List.mem_cons.mp hp with hp | hp
      · subst hp
        simp [lookupKey]
      · have hne : ¬ k = p.1 := by
          intro hk
          have : rest.any (fun q => q.1 == k) = true :=
            List.any_eq_true.mpr ⟨p, hp, by simp [hk]⟩
          simp [this] at h
        simp only [lookupKey, if_neg hne]
        exact wfKeysEntries_lookup rest h.2 p hp

theorem noNestedArrEntries_forall : ∀ (l : List (String × Tree)), noNestedArrEntries l = true →
    ∀ p ∈ l, noNestedArr p.2 = true
  | [], _, p, hp => by simp at hp
  | (k, v) :: rest, h, p, hp => by
      rw [noNestedArrEntries_cons] at h
      simp only [Bool.and_eq_true] at h
      rcases List.mem_cons.mp hp with hp | hp
      · subst hp
        exact h.1
      · exact noNestedArrEntries_forall rest h.2 p hp

theorem wfKeysList_forall : ∀ (l : List Tree), wfKeysList l = true → ∀ v ∈ l, wfKeys v = true
  | [], _, v, hv => by simp at hv
  | x :: rest, h, v, hv => by
      rw [wfKeysList_cons] at h
      simp only [Bool.and_eq_true] at h
      rcases List.mem_cons.mp hv with hv | hv
      · subst hv
        exact h.1
      · exact wfKeysList_forall rest h.2 v hv

theorem noNestedArrList_forall : ∀ (l : List Tree), noNestedArrList l = true →
    ∀ v ∈ l, (∀ m, v ≠ Tree.arr m) ∧ noNestedArr v = true
  | [], _, v, hv => by simp at hv
  | x :: rest, h, v, hv => by
      rw [noNestedArrList.eq_def] at h
      rcases List.mem_cons.mp hv with hveq | hvm
      · subst hveq
        cases v with
        | arr m2 => simp at h
        | str a => exact ⟨fun m hm => Tree.noConfusion hm, noNestedArr_str a⟩
        | obj l2 =>
            simp only [Bool.and_eq_true] at h
            exact ⟨fun m hm => Tree.noConfusion hm, h.1.2⟩
      · cases x with
        | arr m2 => simp at h
        | str a =>
            simp only [Bool.and_eq_true] at h
            exact noNestedArrList_forall rest h.2 v hvm
        | obj l2 =>
            simp only [Bool.and_eq_true] at h
            exact noNestedArrList_forall rest h.2 v hvm

/-! Self-merge: merging a well-formed tree with no nested array into
itself is the identity. -/

mutual
theorem selfMerge_entries : ∀ (l full : List (String × Tree)),
    (∀ p ∈ l, lookupKey full p.1 = some p.2) →
    (∀ p ∈ l, wfKeys p.2 = true ∧ noNestedArr p.2 = true) →
    reorderObjEntries l (.obj full) = l
  | [], _, _, _ => by rw [reorderObjEntries_nil]
  | (k, sv) :: rest, full, hlk, hvals => by
      have hhead := hlk (k, sv) (List.mem_cons_self _ _)
      have hv := hvals (k, sv) (List.mem_cons_self _ _)
      rw [reorderObjEntries_cons, getKey_obj, hhead, selfMerge_val sv hv.1 hv.2,
        selfMerge_entries rest full (fun p hp => hlk p (List.mem_cons_of_mem _ hp))
          (fun p hp => hvals p (List.mem_cons_of_mem _ hp))]

theorem selfMerge_val : ∀ (sv : Tree), wfKeys sv = true → noNestedArr sv = true →
    mergeVal sv (some sv) = sv
  | .str a, _, _ => by rw [mergeVal_str_some]
  | .obj l, hwf, hnn => by
      rw [wfKeys_obj] at hwf
      rw [noNestedArr_obj] at hnn
      rw [mergeVal_obj_obj]
      exact congrArg Tree.obj (selfMerge_entries l l (wfKeysEntries_lookup l hwf)
        (fun p hp => ⟨wfKeysEntries_forall l hwf p hp, noNestedArrEntries_forall l hnn p hp⟩))
  | .arr l, hwf, hnn => by
      rw [wfKeys_arr] at hwf
      rw [noNestedArr_arr] at hnn
      rw [mergeVal_arr_arr_eq rfl]
      exact congrArg Tree.arr (selfMerge_elems l
        (fun v hv => ⟨(noNestedArrList_forall l hnn v hv).1, wfKeysList_forall l hwf v hv,
          (noNestedArrList_forall l hnn v hv).2⟩))

theorem selfMerge_elems : ∀ (l : List Tree),
    (∀ v ∈ l, (∀ m, v ≠ Tree.arr m) ∧ wfKeys v = true ∧ noNestedArr v = true) →
    mergeElems l l = l
  | [], _ => by rw [mergeElems_nil]
  | v :: rest, hvals => by
      have hv := hvals v (List.mem_cons_self _ _)
      rw [mergeElems_cons]
      have hhead : elemMerge v v = v := by
        cases v with
        | str a => rw [elemMerge_str]
        | arr m => exact absurd rfl (hv.1 m)
        | obj l' =>
            have hob : isObjLike (Tree.obj l') = true := rfl
            rw [elemMerge_obj l' hob]
            have hwf : wfKeysEntries l' = true := by
              have := hv.2.1
              rwa [wfKeys_obj] at this
            have hnn : noNestedArrEntries l' = true := by
              have := hv.2.2
              rwa [noNestedArr_obj] at this
            exact congrArg Tree.obj (selfMerge_entries l' l' (wfKeysEntries_lookup l' hwf)
              (fun p hp => ⟨wfKeysEntries_forall l' hwf p hp,
                noNestedArrEntries_forall l' hnn p hp⟩))
      rw [hhead, selfMerge_elems rest (fun w hw => hvals w (List.mem_cons_of_mem _ hw))]
end

/-! Idempotence of the merge for well-formed sources without nested
arrays. -/

mutual
theorem idem_entries : ∀ (l : List (String × Tree)) (R C : Tree),
    (∀ p ∈ l, getKey R p.1 = some (mergeVal p.2 (getKey C p.1))) →
    (∀ p ∈ l, wfKeys p.2 = true ∧ noNestedArr p.2 = true) →
    reorderObjEntries l R = reorderObjEntries l C
  | [], _, _, _, _ => by rw [reorderObjEntries_nil, reorderObjEntries_nil]
  | (k, sv) :: rest, R, C, hyp, hvals => by
      have hhead := hyp (k, sv) (List.mem_cons_self _ _)
      have hv := hvals (k, sv) (List.mem_cons_self _ _)
      rw [reorderObjEntries_cons, reorderObjEntries_cons, hhead,
        idem_val sv (getKey C k) hv.1 hv.2,
        idem_entries rest R C (fun p hp => hyp p (List.mem_cons_of_mem _ hp))
          (fun p hp => hvals p (List.mem_cons_of_mem _ hp))]

theorem idem_val : ∀ (sv : Tree) (cv : Option Tree), wfKeys sv = true → noNestedArr sv = true →
    mergeVal sv (some (mergeVal sv cv)) = mergeVal sv cv
  | .str a, some cv0, _, _ => by simp only [mergeVal_str_some]
  | .str a, none, _, _ => by rw [mergeVal_str_none, mergeVal_str_some]
  | .obj l, some (.obj m), hwf, hnn => by
      rw [wfKeys_obj] at hwf
      rw [noNestedArr_obj] at hnn
      rw [mergeVal_obj_obj, mergeVal_obj_obj]
      refine congrArg Tree.obj (idem_entries l (.obj (reorderObjEntries l (.obj m))) (.obj m)
        ?_ (fun p hp => ⟨wfKeysEntries_forall l hwf p hp, noNestedArrEntries_forall l hnn p hp⟩))
      intro p hp
      rw [getKey_obj, lookupKey_reorderObjEntries, wfKeysEntries_lookup l hwf p hp]
      rfl
  | .obj l, some (.str b), hwf, hnn => by
      rw [mergeVal_obj_str]
      exact selfMerge_val (.obj l) hwf hnn
  | .obj l, some (.arr m), hwf, hnn => by
      rw [mergeVal_obj_arr]
      exact selfMerge_val (.obj l) hwf hnn
  | .obj l, none, hwf, hnn => by
      rw [mergeVal_obj_none]
      exact selfMerge_val (.obj l) hwf hnn
  | .arr l, some (.arr m), hwf, hnn => by
      by_cases hlen : l.length = m.length
      · rw [mergeVal_arr_arr_eq hlen,
          mergeVal_arr_arr_eq ((mergeElems_length l m hlen).symm),
          idem_elems l m (fun v hv =>
            ⟨(noNestedArrList_forall l (by rwa [noNestedArr_arr] at hnn) v hv).1,
             wfKeysList_forall l (by rwa [wfKeys_arr] at hwf) v hv,
             (noNestedArrList_forall l (by rwa [noNestedArr_arr] at hnn) v hv).2⟩)]
      · rw [mergeVal_arr_arr_ne hlen]
        exact selfMerge_val (.arr l) hwf hnn
  | .arr l, some (.obj m), hwf, hnn => by
      rw [mergeVal_arr_obj]
      exact selfMerge_val (.arr l) hwf hnn
  | .arr l, some (.str b), hwf, hnn => by
      rw [mergeVal_arr_str]
      exact selfMerge_val (.arr l) hwf hnn
  | .arr l, none, hwf, hnn => by
      rw [mergeVal_arr_none]
      exact selfMerge_val (.arr l) hwf hnn

theorem idem_elems : ∀ (l m : List Tree),
    (∀ v ∈ l, (∀ m', v ≠ Tree.arr m') ∧ wfKeys v = true ∧ noNestedArr v = true) →
    mergeElems l (mergeElems l m) = mergeElems l m
  | [], m, _ => by rw [mergeElems_nil, mergeElems_nil]
  | si :: ss, [], _ => by rw [mergeElems_cons_nil, mergeElems_cons_nil]
  | si :: ss, ci :: cs, hvals => by
      have hv := hvals si (List.mem_cons_self _ _)
      rw [mergeElems_cons, mergeElems_cons, idem_elem si ci hv.1 hv.2.1 hv.2.2,
        idem_elems ss cs (fun w hw => hvals w (List.mem_cons_of_mem _ hw))]

theorem idem_elem : ∀ (si ci : Tree), (∀ m', si ≠ Tree.arr m') → wfKeys si = true →
    noNestedArr si = true → elemMerge si (elemMerge si ci) = elemMerge si ci
  | .str a, ci, _, _, _ => by rw [elemMerge_str, elemMerge_str]
  | .arr m, _, hne, _, _ => absurd rfl (hne m)
  | .obj l', ci, _, hwf, hnn => by
      by_cases hc : isObjLike ci = true
      · rw [wfKeys_obj] at hwf
        rw [noNestedArr_obj] at hnn
        have hob : isObjLike (Tree.obj (reorderObjEntries l' ci)) = true := rfl
        rw [elemMerge_obj l' hc, elemMerge_obj l' hob]
        refine congrArg Tree.obj (idem_entries l' (.obj (reorderObjEntries l' ci)) ci ?_
          (fun p hp => ⟨wfKeysEntries_forall l' hwf p hp, noNestedArrEntries_forall l' hnn p hp⟩))
        intro p hp
        rw [getKey_obj, lookupKey_reorderObjEntries, wfKeysEntries_lookup l' hwf p hp]
        rfl
      · have hc' : isObjLike ci = false := by
          cases hcc : isObjLike ci
          · rfl
          · exact absurd hcc hc
        rw [elemMerge_nonObj (.obj l') ci hc', elemMerge_nonObj (.obj l') ci hc']
end

/-- C6 amended: for every source tree (an object, as every TranslationFile
root is) whose keys are unique at every level and which holds no array
directly inside an array, merging already-merged content changes nothing:
reorderToMatchSource(S, reorderToMatchSource(S, C)) equals
reorderToMatchSource(S, C) for every content C.  Without the nested-array
proviso the second merge rebuilds an inner array as an index-keyed object,
as the counterexample shows. -/
theorem reorderToMatchSource_idempotent (l : List (String × Tree)) (content : Tree)
    (hwf : wfKeys (.obj l) = true) (hnn : noNestedArr (.obj l) = true) :
    reorderToMatchSource (.obj l) (reorderToMatchSource (.obj l) content)
      = reorderToMatchSource (.obj l) content := by
  rw [wfKeys_obj] at hwf
  rw [noNestedArr_obj] at hnn
  have hrw : ∀ c : Tree, reorderToMatchSource (.obj l) c = .obj (reorderObjEntries l c) :=
    fun c => rfl
  rw [hrw]
  refine congrArg Tree.obj (idem_entries l (.obj (reorderObjEntries l content)) content ?_
    (fun p hp => ⟨wfKeysEntries_forall l hwf p hp, noNestedArrEntries_forall l hnn p hp⟩))
  intro p hp
  rw [getKey_obj, lookupKey_reorderObjEntries, wfKeysEntries_lookup l hwf p hp]
  rfl

/-- C6 witness: idempotence applied to a concrete well-formed source with
object-valued array elements and a concrete partially overlapping
content. -/
theorem reorderToMatchSource_idempotent_witness :
    reorderToMatchSource (.obj [("sec", .obj [("description", .str "d"),
        ("links", .arr [.obj [("text", .str "Go")]])])])
      (reorderToMatchSource (.obj [("sec", .obj [("description", .str "d"),
        ("links", .arr [.obj [("text", .str "Go")]])])])
        (.obj [("sec", .obj [("description", .str "dd")])]))
      = reorderToMatchSource (.obj [("sec", .obj [("description", .str "d"),
          ("links", .arr [.obj [("text", .str "Go")]])])])
        (.obj [("sec", .obj [("description", .str "dd")])]) :=
  reorderToMatchSource_idempotent
    [("sec", .obj [("description", .str "d"), ("links", .arr [.obj [("text", .str "Go")]])])]
    (.obj [("sec", .obj [("description", .str "dd")])]) (by decide) (by decide)
/-! Empty containers at the diff interface. -/

theorem lookupKey_append_of_none {l1 : List (String × Tree)} {s : String}
    (h : lookupKey l1 s = none) (l2 : List (String × Tree)) :
    lookupKey (l1 ++ l2) s = lookupKey l2 s := by
  induction l1 with
  | nil => simp
  | cons p rest ih =>
      obtain ⟨k0, v0⟩ := p
      by_cases hk : k0 = s
      · simp [lookupKey, hk] at h
      · simp only [lookupKey, if_neg hk] at h
        simp only [List.cons_append, lookupKey, if_neg hk]
        exact ih h

theorem lookupKey_append_of_some {l1 : List (String × Tree)} {s : String} {w : Tree}
    (h : lookupKey l1 s = some w) (l2 : List (String × Tree)) :
    lookupKey (l1 ++ l2) s = some w := by
  induction l1 with
  | nil => simp [lookupKey] at h
  | cons p rest ih =>
      obtain ⟨k0, v0⟩ := p
      by_cases hk : k0 = s
      · simp only [lookupKey, if_pos hk] at h
        simp only [List.cons_append, lookupKey, if_pos hk]
        exact h
      · simp only [lookupKey, if_neg hk] at h
        simp only [List.cons_append, lookupKey, if_neg hk]
        exact ih h

theorem lookupKey_left_of_append_none {l1 l2 : List (String × Tree)} {s : String}
    (h : lookupKey (l1 ++ l2) s = none) : lookupKey l1 s = none := by
  cases hl : lookupKey l1 s with
  | none => rfl
  | some w => rw [lookupKey_append_of_some hl l2] at h; exact Option.noConfusion h

theorem lookupKey_insert_ne {l1 l2 : List (String × Tree)} {k s : String} {v : Tree}
    (hne : ¬ s = k) : lookupKey (l1 ++ (k, v) :: l2) s = lookupKey (l1 ++ l2) s := by
  cases hl : lookupKey l1 s with
  | some w => rw [lookupKey_append_of_some hl, lookupKey_append_of_some hl]
  | none =>
      rw [lookupKey_append_of_none hl, lookupKey_append_of_none hl]
      have hks : ¬ k = s := fun hk => hne hk.symm
      simp only [lookupKey, if_neg hks]

theorem flattenEntries_insert {k : String} {v : Tree} (hv : v = .obj [] ∨ v = .arr [])
    (l2 : List (String × Tree)) :
    ∀ (l1 : List (String × Tree)) (pre : String),
    flattenEntries (l1 ++ (k, v) :: l2) pre = flattenEntries (l1 ++ l2) pre
  | [], pre => by
      simp only [List.nil_append, flattenEntries_cons]
      rcases hv with hv | hv <;> subst hv
      · rw [flattenKeys_obj, flattenEntries_nil]
        simp [isObjLike]
      · rw [flattenKeys_arr, flattenElems_nil]
        simp [isObjLike]
  | (k0, v0) :: l1, pre => by
      simp only [List.cons_append, flattenEntries_cons]
      rw [flattenEntries_insert hv l2 l1 pre]

theorem resolveSegs_insert {l1 l2 : List (String × Tree)} {k : String} {v : Tree}
    (hv : v = .obj [] ∨ v = .arr []) (hfresh : lookupKey (l1 ++ l2) k = none)
    (s : String) (rest : List String) (hcase : ¬ s = k ∨ rest ≠ []) :
    resolveSegs (.obj (l1 ++ (k, v) :: l2)) (s :: rest) =
      resolveSegs (.obj (l1 ++ l2)) (s :: rest) := by
  by_cases hs : s = k
  · subst hs
    have hrest : rest ≠ [] := by
      rcases hcase with hcase | hcase
      · exact absurd rfl hcase
      · exact hcase
    have h1 : lookupKey l1 s = none := lookupKey_left_of_append_none hfresh
    have hgi : getKey (.obj (l1 ++ (s, v) :: l2)) s = some v := by
      rw [getKey_obj, lookupKey_append_of_none h1]
      simp [lookupKey]
    rw [resolveSegs_cons_some hgi, resolveSegs_cons_none (by rw [getKey_obj]; exact hfresh)]
    cases rest with
    | nil => exact absurd rfl hrest
    | cons r rs =>
        have hempty : getKey v r = none := by
          rcases hv with hv | hv <;> subst hv
          · rw [getKey_obj]; simp [lookupKey]
          · rw [getKey_arr]; simp [idxPairs, lookupKey]
        rw [resolveSegs_cons_none hempty]
  · cases hl : lookupKey (l1 ++ l2) s with
    | none =>
        rw [resolveSegs_cons_none (by rw [getKey_obj, lookupKey_insert_ne hs]; exact hl),
          resolveSegs_cons_none (by rw [getKey_obj]; exact hl)]
    | some w =>
        rw [resolveSegs_cons_some (v := w) (by rw [getKey_obj, lookupKey_insert_ne hs]; exact hl),
          resolveSegs_cons_some (by rw [getKey_obj]; exact hl)]

theorem getValueAtPath_insert {l1 l2 : List (String × Tree)} {k : String} {v : Tree}
    (hv : v = .obj [] ∨ v = .arr []) (hfresh : lookupKey (l1 ++ l2) k = none)
    (p : String) (hne : ¬ p = k) :
    getValueAtPath (.obj (l1 ++ (k, v) :: l2)) p = getValueAtPath (.obj (l1 ++ l2)) p := by
  unfold getValueAtPath
  obtain ⟨s, rest, hsplit⟩ : ∃ s rest, jsSplitDot p = s :: rest := by
    cases hh : jsSplitDot p with
    | nil => exact absurd hh (jsSplitDot_ne_nil p)
    | cons a b => exact ⟨a, b, rfl⟩
  rw [hsplit]
  refine resolveSegs_insert hv hfresh s rest ?_
  by_cases hsk : s = k
  · right
    intro hrnil
    exact hne (jsSplitDot_eq_singleton (by rw [hsplit, hsk, hrnil]))
  · left
    exact hsk

theorem compareTranslations_congr (S S' T T' : Tree)
    (hS : flattenKeys S' "" = flattenKeys S "")
    (hT : flattenKeys T' "" = flattenKeys T "")
    (hSres : ∀ p ∈ flattenKeys S "", p ∈ flattenKeys T "" →
      getValueAtPath S' p = getValueAtPath S p)
    (hTres : ∀ p ∈ flattenKeys S "", p ∈ flattenKeys T "" →
      getValueAtPath T' p = getValueAtPath T p) :
    compareTranslations S' T' = compareTranslations S T := by
  have hmm : ((flattenKeys S "").filterMap (fun key =>
      if key ∈ flattenKeys T "" then
        if getValueType (getValueAtPath S' key) ≠ getValueType (getValueAtPath T' key) ∧
           getValueType (getValueAtPath S' key) ≠ .undefined ∧
           getValueType (getValueAtPath T' key) ≠ .undefined then
          some (⟨key, getValueType (getValueAtPath S' key),
            getValueType (getValueAtPath T' key)⟩ : TypeMismatch)
        else none
      else none))
      = ((flattenKeys S "").filterMap (fun key =>
      if key ∈ flattenKeys T "" then
        if getValueType (getValueAtPath S key) ≠ getValueType (getValueAtPath T key) ∧
           getValueType (getValueAtPath S key) ≠ .undefined ∧
           getValueType (getValueAtPath T key) ≠ .undefined then
          some (⟨key, getValueType (getValueAtPath S key),
            getValueType (getValueAtPath T key)⟩ : TypeMismatch)
        else none
      else none)) := by
    refine List.filterMap_congr (fun p hp => ?_)
    by_cases hmemT : p ∈ flattenKeys T ""
    · rw [hSres p hp hmemT, hTres p hp hmemT]
    · rw [if_neg hmemT, if_neg hmemT]
  simp only [compareTranslations]
  rw [hS, hT, hmm]

/-- C10 amended: inserting a key holding an empty container (empty object
or empty array) anywhere at the root of a tree — the key fresh in that
object and its path not already produced by flattenKeys through aliasing —
contributes no key path to flattenKeys and leaves every part of
compareTranslations unchanged on either side: missingInTarget,
extraInTarget, typeMismatches and all summary counts including
totalKeysInSource/totalKeysInTarget.  The freshness proviso is forced by
the counterexample, where a dotted alias makes the empty-container key
itself surface in typeMismatches. -/
theorem emptyContainer_invisible (l1 l2 : List (String × Tree)) (k : String) (v : Tree)
    (U : Tree) (hv : v = .obj [] ∨ v = .arr [])
    (hfresh : lookupKey (l1 ++ l2) k = none)
    (hmem : k ∉ flattenKeys (.obj (l1 ++ l2)) "") :
    (∀ pre, flattenKeys (.obj (l1 ++ (k, v) :: l2)) pre = flattenKeys (.obj (l1 ++ l2)) pre) ∧
    compareTranslations (.obj (l1 ++ (k, v) :: l2)) U = compareTranslations (.obj (l1 ++ l2)) U ∧
    compareTranslations U (.obj (l1 ++ (k, v) :: l2)) = compareTranslations U (.obj (l1 ++ l2)) := by
  have hflat : ∀ pre, flattenKeys (.obj (l1 ++ (k, v) :: l2)) pre =
      flattenKeys (.obj (l1 ++ l2)) pre := by
    intro pre
    rw [flattenKeys_obj, flattenKeys_obj]
    exact flattenEntries_insert hv l2 l1 pre
  refine ⟨hflat, ?_, ?_⟩
  · refine compareTranslations_congr (.obj (l1 ++ l2)) (.obj (l1 ++ (k, v) :: l2)) U U
      (hflat "") rfl ?_ (fun p hp hq => rfl)
    intro p hp hq
    exact getValueAtPath_insert hv hfresh p (fun hpk => hmem (hpk ▸ hp))
  · refine compareTranslations_congr U U (.obj (l1 ++ l2)) (.obj (l1 ++ (k, v) :: l2))
      rfl (hflat "") (fun p hp hq => rfl) ?_
    intro p hp hq
    exact getValueAtPath_insert hv hfresh p (fun hpk => hmem (hpk ▸ hq))

/-- C10 witness: the invariance applied to a concrete tree with an empty
array inserted between two populated keys, compared against a concrete
target on both sides. -/
theorem emptyContainer_invisible_witness :
    compareTranslations (.obj [("a", .str "x"), ("empty", .arr []), ("b", .obj [("c", .str "y")])])
        (.obj [("a", .str "xx"), ("b", .str "oops")])
      = compareTranslations (.obj [("a", .str "x"), ("b", .obj [("c", .str "y")])])
          (.obj [("a", .str "xx"), ("b", .str "oops")]) :=
  (emptyContainer_invisible [("a", .str "x")] [("b", .obj [("c", .str "y")])] "empty" (.arr [])
    (.obj [("a", .str "xx"), ("b", .str "oops")]) (Or.inr rfl) (by decide) (by decide)).2.1
/-! The classifier of translateMissingKeys: membership characterisations
of the three groups of string keys. -/

theorem mem_hrefKeysOf (E : Tree) (M : List String) (hp : List String) (key : String) :
    key ∈ hrefKeysOf E M hp ↔ key ∈ stringKeysOf E M ∧ isHrefKey key hp = true := by
  simp [hrefKeysOf, List.mem_filter]

theorem mem_normalKeysOf (E : Tree) (M : List String) (hp : List String)
    (ps : List LinkedContentPattern) (key : String) :
    key ∈ normalKeysOf E M hp ps ↔
      key ∈ stringKeysOf E M ∧ isHrefKey key hp = false ∧
        key ∉ descriptionKeysWithLinksOf E M ps ∧
        key ∉ linkTextKeysToSkipOf E M ps := by
  simp [normalKeysOf, List.mem_filter, and_assoc]

/-- C4: amended classifier partition.  Every missing string key falls into
exactly one of the three groups — pass-through, joint (a description key
of a linked section, or a link-text key claimed by one), or ordinary —
provided no pass-through key also meets a joint-group criterion.  The
ordinary group unconditionally excludes the other two; the code computes
the pass-through and joint filters independently of one another, so their
disjointness is a hypothesis rather than a guarantee of the code. -/
theorem classifier_partition_amended (E : Tree) (M : List String)
    (hp : List String) (ps : List LinkedContentPattern)
    (hdisj : ∀ x ∈ hrefKeysOf E M hp,
      x ∉ descriptionKeysWithLinksOf E M ps ∧ x ∉ linkTextKeysToSkipOf E M ps) :
    ∀ key ∈ stringKeysOf E M,
      (key ∈ hrefKeysOf E M hp ∧
        ¬ (key ∈ descriptionKeysWithLinksOf E M ps ∨ key ∈ linkTextKeysToSkipOf E M ps) ∧
        key ∉ normalKeysOf E M hp ps) ∨
      (key ∉ hrefKeysOf E M hp ∧
        (key ∈ descriptionKeysWithLinksOf E M ps ∨ key ∈ linkTextKeysToSkipOf E M ps) ∧
        key ∉ normalKeysOf E M hp ps) ∨
      (key ∉ hrefKeysOf E M hp ∧
        ¬ (key ∈ descriptionKeysWithLinksOf E M ps ∨ key ∈ linkTextKeysToSkipOf E M ps) ∧
        key ∈ normalKeysOf E M hp ps) := by
  intro key hkey
  by_cases hpass : isHrefKey key hp = true
  · have h1 : key ∈ hrefKeysOf E M hp := (mem_hrefKeysOf E M hp key).mpr ⟨hkey, hpass⟩
    have h2 := hdisj key h1
    refine Or.inl ⟨h1, ?_, ?_⟩
    · rintro (hd | hs)
      · exact h2.1 hd
      · exact h2.2 hs
    · intro hn
      have h3 := ((mem_normalKeysOf E M hp ps key).mp hn).2.1
      rw [hpass] at h3
      exact Bool.noConfusion h3
  · have hfalse : isHrefKey key hp = false := by
      cases h : isHrefKey key hp
      · rfl
      · exact absurd h hpass
    have hnotin : key ∉ hrefKeysOf E M hp := fun h =>
      hpass ((mem_hrefKeysOf E M hp key).mp h).2
    by_cases hjoint : key ∈ descriptionKeysWithLinksOf E M ps ∨
        key ∈ linkTextKeysToSkipOf E M ps
    · refine Or.inr (Or.inl ⟨hnotin, hjoint, ?_⟩)
      intro hn
      have h3 := (mem_normalKeysOf E M hp ps key).mp hn
      rcases hjoint with hd | hs
      · exact h3.2.2.1 hd
      · exact h3.2.2.2 hs
    · rcases not_or.mp hjoint with ⟨hd, hs⟩
      exact Or.inr (Or.inr ⟨hnotin, hjoint,
        (mem_normalKeysOf E M hp ps key).mpr ⟨hkey, hfalse, hd, hs⟩⟩)

/-- C4 witness: the partition applied to a concrete file and key list with
the default patterns, evaluated at the ordinary key sec.title. -/
theorem classifier_partition_amended_witness :
    ("sec.title" ∉
        hrefKeysOf
          (.obj [("sec", .obj [("description", .str "d"),
              ("links", .arr [.obj [("text", .str "t")]]), ("title", .str "T")]),
            ("a", .obj [("href", .str "u")])])
          ["a.href", "sec.description", "sec.links.0.text", "sec.title"] ["*.href"] ∧
      ¬ ("sec.title" ∈
          descriptionKeysWithLinksOf
            (.obj [("sec", .obj [("description", .str "d"),
                ("links", .arr [.obj [("text", .str "t")]]), ("title", .str "T")]),
              ("a", .obj [("href", .str "u")])])
            ["a.href", "sec.description", "sec.links.0.text", "sec.title"] [] ∨
        "sec.title" ∈
          linkTextKeysToSkipOf
            (.obj [("sec", .obj [("description", .str "d"),
                ("links", .arr [.obj [("text", .str "t")]]), ("title", .str "T")]),
              ("a", .obj [("href", .str "u")])])
            ["a.href", "sec.description", "sec.links.0.text", "sec.title"] []) ∧
      "sec.title" ∈
        normalKeysOf
          (.obj [("sec", .obj [("description", .str "d"),
              ("links", .arr [.obj [("text", .str "t")]]), ("title", .str "T")]),
            ("a", .obj [("href", .str "u")])])
          ["a.href", "sec.description", "sec.links.0.text", "sec.title"] ["*.href"] []) := by
  have h := classifier_partition_amended
    (.obj [("sec", .obj [("description", .str "d"),
        ("links", .arr [.obj [("text", .str "t")]]), ("title", .str "T")]),
      ("a", .obj [("href", .str "u")])])
    ["a.href", "sec.description", "sec.links.0.text", "sec.title"]
    ["*.href"] [] (by decide) "sec.title" (by decide)
  rcases h with h | h | h
  · exact absurd h.1 (by decide)
  · rcases h.2.1 with hd | hs
    · exact absurd hd (by decide)
    · exact absurd hs (by decide)
  · exact h

/-! Dot-counting facts about the path strings, used to separate the link
row keys of translateDescriptionWithLinks from its description key. -/

theorem joinDot_count : ∀ (l : List String), (∀ s ∈ l, '.' ∉ s.data) →
    (joinDot l).data.count '.' = l.length - 1
  | [], _ => rfl
  | [x], h => by
      show x.data.count '.' = 0
      exact List.count_eq_zero.mpr (h x (List.mem_singleton_self x))
  | x :: y :: rest, h => by
      have ih := joinDot_count (y :: rest) (fun s hs => h s (List.mem_cons_of_mem x hs))
      have hx : x.data.count '.' = 0 :=
        List.count_eq_zero.mpr (h x (List.mem_cons_self x (y :: rest)))
      simp only [joinDot]
      rw [String.data_append (x ++ ".") (joinDot (y :: rest)), String.data_append x ".",
        List.count_append, List.count_append, hx, ih]
      have hone : (("." : String).data).count '.' = 1 := rfl
      rw [hone]
      simp only [List.length_cons]
      omega

theorem getParentSection_count_ge (p : String) :
    p.data.count '.' ≤ (getParentSection p).data.count '.' + 1 := by
  have hlen := jsSplitDot_length p
  by_cases hl : (jsSplitDot p).length > 1
  · have hgp : getParentSection p = joinDot (jsSplitDot p).dropLast := by
      simp only [getParentSection]
      rw [if_pos hl]
    rw [hgp, joinDot_count _ (fun s hs => jsSplitDot_seg_no_dot p s (List.dropLast_subset _ hs))]
    have hdl : (jsSplitDot p).dropLast.length = (jsSplitDot p).length - 1 :=
      List.length_dropLast _
    omega
  · have hgp : getParentSection p = "" := by
      simp only [getParentSection]
      rw [if_neg hl]
    rw [hgp]
    have h0 : ("" : String).data.count '.' = 0 := rfl
    rw [h0]
    omega

/-- A link row key of translateDescriptionWithLinks — the parent section
of the description key extended by three dotted segments — never equals
the description key itself: it carries at least two more dots than the
parent section, while the description key carries at most one more. -/
theorem linkTextKey_ne (p lk idx tf : String) :
    getParentSection p ++ "." ++ lk ++ "." ++ idx ++ "." ++ tf ≠ p := by
  intro heq
  have hc := congrArg (fun s : String => s.data.count '.') heq
  simp only [String.data_append, List.count_append] at hc
  have hone : (("." : String).data).count '.' = 1 := rfl
  rw [hone] at hc
  have hp := getParentSection_count_ge p
  omega

/-- C5: amended joint-group fallback.  The description-only fallback row
is produced exactly when the provider response fails to parse as JSON or
parses to JSON null (reading .description of null throws inside the try
block, reaching the same catch).  Any other parsed value is handled in the
try block: if it lacks a string description field, no result row at all is
keyed by the description key — the fallback does not run — and whenever it
has a string description field the corresponding description row is
produced. -/
theorem translateDescriptionWithLinks_fallback (descKey description : String)
    (linkTexts : List String) (lang : String) (ps : List LinkedContentPattern)
    (response : Option JVal) (fb : String) :
    ((response = none ∨ response = some .jnull) →
      translateDescriptionWithLinks descKey description linkTexts lang ps response fb
        = [⟨descKey, description, .jstr fb, lang⟩]) ∧
    (∀ v, response = some v → v ≠ .jnull →
      (∀ d, jfield v "description" ≠ some (.jstr d)) →
      ∀ r ∈ translateDescriptionWithLinks descKey description linkTexts lang ps response fb,
        r.key ≠ descKey) ∧
    (∀ v d, response = some v → jfield v "description" = some (.jstr d) →
      (⟨descKey, description, .jstr d, lang⟩ : LinkedResult) ∈
        translateDescriptionWithLinks descKey description linkTexts lang ps response fb) := by
  refine ⟨?_, ?_, ?_⟩
  · rintro (rfl | rfl) <;> rfl
  · rintro v rfl hnull hnod r hr
    cases v with
    | jnull => exact absurd rfl hnull
    | jbool b => exact absurd hr (List.not_mem_nil r)
    | jnum n => exact absurd hr (List.not_mem_nil r)
    | jstr s => exact absurd hr (List.not_mem_nil r)
    | jarr l => exact absurd hr (List.not_mem_nil r)
    | jobj fields =>
        rcases List.mem_append.mp hr with h1 | h2
        · rcases hdd : jfield (JVal.jobj fields) "description" with _ | w
          · rw [hdd] at h1
            exact absurd h1 (List.not_mem_nil r)
          · cases w with
            | jstr d => exact absurd hdd (hnod d)
            | jnull => rw [hdd] at h1; exact absurd h1 (List.not_mem_nil r)
            | jbool b => rw [hdd] at h1; exact absurd h1 (List.not_mem_nil r)
            | jnum n => rw [hdd] at h1; exact absurd h1 (List.not_mem_nil r)
            | jarr l => rw [hdd] at h1; exact absurd h1 (List.not_mem_nil r)
            | jobj l => rw [hdd] at h1; exact absurd h1 (List.not_mem_nil r)
        · rcases hll : jfield (JVal.jobj fields) "linkTexts" with _ | u
          · rw [hll] at h2
            exact absurd h2 (List.not_mem_nil r)
          · cases u with
            | jarr pts =>
                rw [hll] at h2
                rcases List.mem_map.mp h2 with ⟨i, hi, hri⟩
                rw [← hri]
                exact linkTextKey_ne descKey (linksKeyOf ps) (jsIdx i) (textFieldOf ps)
            | jnull => rw [hll] at h2; exact absurd h2 (List.not_mem_nil r)
            | jbool b => rw [hll] at h2; exact absurd h2 (List.not_mem_nil r)
            | jnum n => rw [hll] at h2; exact absurd h2 (List.not_mem_nil r)
            | jstr s => rw [hll] at h2; exact absurd h2 (List.not_mem_nil r)
            | jobj l => rw [hll] at h2; exact absurd h2 (List.not_mem_nil r)
  · rintro v d rfl hdd
    cases v with
    | jnull => exact Option.noConfusion hdd
    | jbool b => exact Option.noConfusion hdd
    | jnum n => exact Option.noConfusion hdd
    | jstr s => exact Option.noConfusion hdd
    | jarr l => exact Option.noConfusion hdd
    | jobj fields =>
        refine List.mem_append.mpr (Or.inl ?_)
        rw [hdd]
        exact List.mem_singleton_self _

/-- C5 witness: the fallback behaviour at concrete inputs.  A parsed null
yields the description-only fallback row; a parsed object carrying only
link texts yields no row keyed by the description key; a parsed object
with a string description field yields the description row. -/
theorem translateDescriptionWithLinks_fallback_witness :
    translateDescriptionWithLinks "sec.description" "d" ["t"] "de" [] (some .jnull) "FB"
      = [⟨"sec.description", "d", .jstr "FB", "de"⟩] ∧
    (∀ r ∈ translateDescriptionWithLinks "sec.description" "d" ["t", "u"] "de" []
        (some (.jobj [("linkTexts", .jarr [.jstr "T1", .jstr "T2"])])) "FB",
      r.key ≠ "sec.description") ∧
    (⟨"sec.description", "d", .jstr "D2", "de"⟩ : LinkedResult) ∈
      translateDescriptionWithLinks "sec.description" "d" [] "de" []
        (some (.jobj [("description", .jstr "D2")])) "FB" := by
  refine ⟨?_, ?_, ?_⟩
  · exact (translateDescriptionWithLinks_fallback "sec.description" "d" ["t"] "de" []
      (some .jnull) "FB").1 (Or.inr rfl)
  · exact (translateDescriptionWithLinks_fallback "sec.description" "d" ["t", "u"] "de" []
      (some (.jobj [("linkTexts", .jarr [.jstr "T1", .jstr "T2"])])) "FB").2.1
      (.jobj [("linkTexts", .jarr [.jstr "T1", .jstr "T2"])]) rfl
      (fun h => JVal.noConfusion h) (fun d h => Option.noConfusion h)
  · exact (translateDescriptionWithLinks_fallback "sec.description" "d" [] "de" []
      (some (.jobj [("description", .jstr "D2")])) "FB").2.2
      (.jobj [("description", .jstr "D2")]) "D2" rfl rfl

/-! The translateBatch pool: the invariant is established by the initial
dispatch, preserved by every completion, and yields result integrity at
any fully completed state. -/

theorem getD_set_self {α : Type} (l : List α) (i : Nat) (v d : α) (h : i < l.length) :
    (l.set i v).getD i d = v := by
  simp [List.getD, List.getElem?_set, h]

theorem getD_set_ne {α : Type} (l : List α) (i k : Nat) (v d : α) (hik : i ≠ k) :
    (l.set k v).getD i d = l.getD i d := by
  simp [List.getD, List.getElem?_set, Ne.symm hik]

theorem dispatchLoop_inv (conc : Nat) (contexts : List TranslationContext) (lang : String)
    (outcome : Nat → Option String) :
    ∀ (k : Nat) (s : PoolState), contexts.length - s.nextIndex ≤ k →
      PoolInv contexts lang outcome s →
      PoolInv contexts lang outcome (dispatchLoop conc contexts.length s) := by
  intro k
  induction k with
  | zero =>
      intro s hk hinv
      rw [dispatchLoop.eq_def, if_neg]
      · exact hinv
      · rintro ⟨h1, h2⟩
        omega
  | succ k ih =>
      intro s hk hinv
      obtain ⟨i1, i2, i3, i4, i5, i6⟩ := hinv
      rw [dispatchLoop.eq_def]
      by_cases hc : s.running.length < conc ∧ s.nextIndex < contexts.length
      · rw [if_pos hc]
        apply ih
        · show contexts.length - (s.nextIndex + 1) ≤ k
          omega
        · refine ⟨i1, ?_, ?_, ?_, ?_, ?_⟩
          · show s.nextIndex + 1 ≤ contexts.length
            omega
          · show (s.running ++ [s.nextIndex]).Nodup
            rw [List.nodup_append]
            refine ⟨i3, List.nodup_singleton _, ?_⟩
            intro a ha hb
            rw [List.mem_singleton] at hb
            subst hb
            exact absurd (i4 _ ha) (lt_irrefl _)
          · show ∀ j ∈ s.running ++ [s.nextIndex], j < s.nextIndex + 1
            intro j hj
            rcases List.mem_append.mp hj with h | h
            · exact Nat.lt_succ_of_lt (i4 j h)
            · rw [List.mem_singleton] at h
              omega
          · show s.completed + (s.running ++ [s.nextIndex]).length = s.nextIndex + 1
            rw [List.length_append]
            simp only [List.length_singleton]
            omega
          · show ∀ i, i < s.nextIndex + 1 →
              i ∈ s.running ++ [s.nextIndex] ∨
                s.results.getD i none = some (itemResult contexts lang outcome i)
            intro i hi
            by_cases hin : i = s.nextIndex
            · subst hin
              exact Or.inl (List.mem_append.mpr (Or.inr (List.mem_singleton_self _)))
            · rcases i6 i (by omega) with h | h
              · exact Or.inl (List.mem_append.mpr (Or.inl h))
              · exact Or.inr h
      · rw [if_neg hc]
        exact ⟨i1, i2, i3, i4, i5, i6⟩

theorem completeTask_inv (conc : Nat) (contexts : List TranslationContext) (lang : String)
    (outcome : Nat → Option String) (s : PoolState) (j : Nat) (hj : j ∈ s.running)
    (hinv : PoolInv contexts lang outcome s) :
    PoolInv contexts lang outcome (completeTask conc contexts lang outcome s j) := by
  obtain ⟨i1, i2, i3, i4, i5, i6⟩ := hinv
  have hrle := List.length_pos_of_mem hj
  have hjn : j < s.nextIndex := i4 j hj
  have hs' : PoolInv contexts lang outcome
      ⟨s.nextIndex, s.running.erase j,
        s.results.set j (some (itemResult contexts lang outcome j)), s.completed + 1⟩ := by
    refine ⟨?_, i2, ?_, ?_, ?_, ?_⟩
    · show (s.results.set j (some (itemResult contexts lang outcome j))).length
        = contexts.length
      rw [List.length_set]
      exact i1
    · show (s.running.erase j).Nodup
      exact i3.erase j
    · show ∀ a ∈ s.running.erase j, a < s.nextIndex
      intro a ha
      exact i4 a (List.mem_of_mem_erase ha)
    · show s.completed + 1 + (s.running.erase j).length = s.nextIndex
      rw [List.length_erase_of_mem hj]
      omega
    · show ∀ i, i < s.nextIndex →
        i ∈ s.running.erase j ∨
          (s.results.set j (some (itemResult contexts lang outcome j))).getD i none
            = some (itemResult contexts lang outcome i)
      intro i hi
      by_cases hij : i = j
      · subst hij
        refine Or.inr ?_
        rw [getD_set_self]
        omega
      · rcases i6 i hi with h | h
        · exact Or.inl ((List.mem_erase_of_ne hij).mpr h)
        · refine Or.inr ?_
          rw [getD_set_ne _ _ _ _ _ hij]
          exact h
  simp only [completeTask]
  split
  · exact hs'
  · exact dispatchLoop_inv conc contexts lang outcome contexts.length _ (Nat.sub_le _ _) hs'

theorem pool_inv_reaches (conc : Nat) (contexts : List TranslationContext) (lang : String)
    (outcome : Nat → Option String) (s : PoolState)
    (h : PoolReaches conc contexts lang outcome s) :
    PoolInv contexts lang outcome s := by
  unfold PoolReaches at h
  induction h with
  | refl =>
      refine dispatchLoop_inv conc contexts lang outcome contexts.length _ (Nat.sub_le _ _) ?_
      refine ⟨?_, Nat.zero_le _, List.nodup_nil, ?_, rfl, ?_⟩
      · show (List.replicate contexts.length (none : Option TranslationResult)).length
          = contexts.length
        simp
      · intro j hj
        exact absurd hj (List.not_mem_nil j)
      · intro i hi
        exact absurd hi (Nat.not_lt_zero i)
  | tail hab hbc ih =>
      cases hbc with
      | complete j hj => exact completeTask_inv conc contexts lang outcome _ j hj ih

/-- C3: pool result integrity of translateBatch.  Whatever the concurrency
cap and however the nondeterministic completion order interleaves with
dispatch, any reachable state of the pool in which every item has
completed holds a results array of exactly the input length whose slot i
is the row for input context i: the translateString row when call i
resolved, and the fallback row reusing the original value when call i
rejected. -/
theorem translateBatch_pool_integrity (conc : Nat) (contexts : List TranslationContext)
    (lang : String) (outcome : Nat → Option String) (s : PoolState)
    (hreach : PoolReaches conc contexts lang outcome s)
    (hdone : s.completed = contexts.length) :
    s.results.length = contexts.length ∧
    (∀ i, i < contexts.length →
      s.results.getD i none = some (itemResult contexts lang outcome i)) ∧
    (∀ i, i < contexts.length → ∀ t, outcome i = some t →
      s.results.getD i none
        = some (translateStringResult (contexts.getD i dummyContext) lang t)) ∧
    (∀ i, i < contexts.length → outcome i = none →
      s.results.getD i none = some (fallbackResult (contexts.getD i dummyContext) lang)) := by
  obtain ⟨i1, i2, i3, i4, i5, i6⟩ := pool_inv_reaches conc contexts lang outcome s hreach
  have hrun : s.running.length = 0 := by omega
  have hall : ∀ i, i < contexts.length →
      s.results.getD i none = some (itemResult contexts lang outcome i) := by
    intro i hi
    rcases i6 i (by omega) with h | h
    · rw [List.length_eq_zero] at hrun
      rw [hrun] at h
      exact absurd h (List.not_mem_nil i)
    · exact h
  refine ⟨i1, hall, ?_, ?_⟩
  · intro i hi t ht
    rw [hall i hi]
    simp [itemResult, ht]
  · intro i hi ht
    rw [hall i hi]
    simp [itemResult, ht]

/-- C3 witness: a two-item run at concurrency 1 in which item 0 resolves
with the text A and item 1 rejects; after both completions the results
array holds the translated row for item 0 and the fallback row for item 1,
in input order. -/
theorem translateBatch_pool_integrity_witness :
    (⟨2, [], [some ⟨"k0", "v0", "A", "de"⟩, some ⟨"k1", "v1", "v1", "de"⟩], 2⟩ :
        PoolState).results.getD 0 none
      = some (translateStringResult ⟨"k0", "v0", "", []⟩ "de" "A") ∧
    (⟨2, [], [some ⟨"k0", "v0", "A", "de"⟩, some ⟨"k1", "v1", "v1", "de"⟩], 2⟩ :
        PoolState).results.getD 1 none
      = some (fallbackResult ⟨"k1", "v1", "", []⟩ "de") ∧
    (⟨2, [], [some ⟨"k0", "v0", "A", "de"⟩, some ⟨"k1", "v1", "v1", "de"⟩], 2⟩ :
        PoolState).results.length = 2 := by
  have hstart : dispatchLoop 1 egContexts.length (initPoolState egContexts.length)
      = ⟨1, [0], [none, none], 0⟩ := by
    rw [dispatchLoop.eq_def, if_pos, dispatchLoop.eq_def, if_neg] <;> decide
  have hmid : completeTask 1 egContexts "de" egOutcome
      (dispatchLoop 1 egContexts.length (initPoolState egContexts.length)) 0
      = ⟨2, [1], [some ⟨"k0", "v0", "A", "de"⟩, none], 1⟩ := by
    rw [hstart]
    simp only [completeTask]
    rw [if_neg, dispatchLoop.eq_def, if_pos, dispatchLoop.eq_def, if_neg] <;> decide
  have hfin : completeTask 1 egContexts "de" egOutcome
      (completeTask 1 egContexts "de" egOutcome
        (dispatchLoop 1 egContexts.length (initPoolState egContexts.length)) 0) 1
      = ⟨2, [], [some ⟨"k0", "v0", "A", "de"⟩, some ⟨"k1", "v1", "v1", "de"⟩], 2⟩ := by
    rw [hmid]
    simp only [completeTask]
    rw [if_pos] <;> decide
  have hj0 : 0 ∈ (dispatchLoop 1 egContexts.length (initPoolState egContexts.length)).running := by
    rw [hstart]
    decide
  have hj1 : 1 ∈ (completeTask 1 egContexts "de" egOutcome
      (dispatchLoop 1 egContexts.length (initPoolState egContexts.length)) 0).running := by
    rw [hmid]
    decide
  have hreach : PoolReaches 1 egContexts "de" egOutcome
      ⟨2, [], [some ⟨"k0", "v0", "A", "de"⟩, some ⟨"k1", "v1", "v1", "de"⟩], 2⟩ := by
    have hchain : Relation.ReflTransGen (PoolStep 1 egContexts "de" egOutcome)
        (dispatchLoop 1 egContexts.length (initPoolState egContexts.length))
        (completeTask 1 egContexts "de" egOutcome
          (completeTask 1 egContexts "de" egOutcome
            (dispatchLoop 1 egContexts.length (initPoolState egContexts.length)) 0) 1) :=
      Relation.ReflTransGen.tail
        (Relation.ReflTransGen.tail Relation.ReflTransGen.refl (PoolStep.complete _ 0 hj0))
        (PoolStep.complete _ 1 hj1)
    exact hfin ▸ hchain
  have h := translateBatch_pool_integrity 1 egContexts "de" egOutcome
    ⟨2, [], [some ⟨"k0", "v0", "A", "de"⟩, some ⟨"k1", "v1", "v1", "de"⟩], 2⟩ hreach rfl
  exact ⟨h.2.2.1 0 (by decide) "A" rfl, h.2.2.2 1 (by decide) rfl, h.1⟩

end Transl8
